import Mathlib

/-!
Shallow embedding of the riscv-qcu core (crates/qcu_core) in Lean 4, together
with proofs about the embedded definitions.

Modelling conventions:
* Rust slices and vectors are embedded as `List Nat` (or `List` of the element
  type); checked indexing (`slice[i]`, which panics when out of bounds) and the
  `get_unchecked` accesses (undefined behaviour when out of bounds) are both
  embedded through an explicit out-of-bounds result `DRes.oob`, so that
  reachability of the out-of-bounds branch can be reasoned about.
* Loops whose termination is a theorem (the find loop of the DSU and the outer
  fixpoint loop of the decoder) are embedded with an explicit fuel parameter;
  exhaustion is the `DRes.fuelOut` result, proven unreachable for the fuel the
  embedding supplies.
* `u64` words of the packed parity bit vectors are `Nat`; all operations on
  them (`>>>`, `&&&`, `|||`, `^^^` with a shifted single bit, and the masked
  bitwise not) stay below `2 ^ 64` when their input does, so no reduction
  modulo `2 ^ 64` is needed.  The `u8` rank counters wrap, so the rank
  increment is embedded modulo `256`.  The explicit `as u32` narrowing of edge
  endpoints is embedded as reduction modulo `2 ^ 32`.
-/

namespace QCU

/-- Result of an embedded stateful operation: a value, an out-of-bounds slice
access (a panic or undefined behaviour in the source), or fuel exhaustion of
the embedding of a source-level loop. -/
inductive DRes (α : Type) where
  | ok (a : α)
  | oob
  | fuelOut
deriving DecidableEq, Repr

/-- Error type of the core crate (src/crates/qcu_core/src/lib.rs); only the
variants exercised by the embedded code are listed. -/
inductive QecError where
  | OutOfMemory
  | BufferOverflow
deriving DecidableEq, Repr

namespace BitPack

/-- Embedding of `BitPack::get`: read bit `index` of the packed vector. -/
def get (storage : List Nat) (index : Nat) : Option Bool :=
  match storage[index / 64]? with
  | none => none
  | some word => some (((word >>> (index % 64)) &&& 1) == 1)

/-- Embedding of `BitPack::toggle`: XOR-flip bit `index` in place. -/
def toggle (storage : List Nat) (index : Nat) : Option (List Nat) :=
  match storage[index / 64]? with
  | none => none
  | some word => some (storage.set (index / 64) (word ^^^ (1 <<< (index % 64))))

/-- Bitwise not of a 64-bit word (`!x` on `u64` in the source). -/
def not64 (x : Nat) : Nat := (2 ^ 64 - 1) ^^^ x

/-- Embedding of `BitPack::set`: write bit `index` to `val`. -/
def set (storage : List Nat) (index : Nat) (val : Bool) : Option (List Nat) :=
  if val then
    match storage[index / 64]? with
    | none => none
    | some word => some (storage.set (index / 64) (word ||| (1 <<< (index % 64))))
  else
    match storage[index / 64]? with
    | none => none
    | some word => some (storage.set (index / 64) (word &&& not64 (1 <<< (index % 64))))

end BitPack

/-- Specification-level total read of bit `index` of a packed bit vector
(words out of range read as zero). -/
def getBitD (storage : List Nat) (index : Nat) : Bool :=
  Nat.testBit (storage.getD (index / 64) 0) (index % 64)

/-! ## StaticVec (src/crates/qcu_core/src/static_vec.rs)

Fixed-capacity vector.  The backing `[MaybeUninit<T>; N]` array only ever has
its first `len` slots read, so the embedding keeps just the initialized
contents as a list; the capacity `N` is a parameter of the structure. -/

structure StaticVec (α : Type) (N : Nat) where
  data : List α
deriving DecidableEq, Repr

namespace StaticVec

/-- Embedding of `StaticVec::new`: the empty vector. -/
def new (α : Type) (N : Nat) : StaticVec α N := ⟨[]⟩

/-- Embedding of `StaticVec::clear`: reset the length to zero. -/
def clear {α : Type} {N : Nat} (_v : StaticVec α N) : StaticVec α N :=
  ⟨[]⟩

/-- Embedding of `StaticVec::push`: append when `len < N`, otherwise hand the
rejected item back (`Result<(), T>` becomes `Except α Unit`). -/
def push {α : Type} {N : Nat} (v : StaticVec α N) (item : α) :
    StaticVec α N × Except α Unit :=
  if v.data.length < N then
    (⟨v.data ++ [item]⟩, Except.ok ())
  else
    (v, Except.error item)

/-- Embedding of `StaticVec::len`. -/
def len {α : Type} {N : Nat} (v : StaticVec α N) : Nat := v.data.length

/-- Push with the result discarded (the `let _ = ... .push(...)` pattern of
the decoder's buffer initialization). -/
def pushD {α : Type} {N : Nat} (v : StaticVec α N) (item : α) : StaticVec α N :=
  (v.push item).1

end StaticVec

/-! ## SpmcQueue (src/crates/qcu_core/src/spmc.rs)

The lock-free single-producer multi-consumer ring.  The claims under
verification concern single-threaded sequences of `push` and `pop` calls, so
the embedding is the sequential semantics of the two operations: in a
single-threaded run the `compare_exchange_weak` in `pop` always observes the
`tail` value just loaded and therefore succeeds on the first attempt.  The
`MaybeUninit<T>` slots are `Option` values (`none` = uninitialized); the
`usize` counters wrap at `2 ^ 64`. -/

def U64 : Nat := 2 ^ 64

structure StaticQueue (α : Type) (N : Nat) where
  buffer : List (Option α)
  head : Nat
  tail : Nat
deriving DecidableEq, Repr

namespace StaticQueue

/-- Embedding of `StaticQueue::new`: uninitialized slots, both counters 0. -/
def new (α : Type) (N : Nat) : StaticQueue α N :=
  ⟨List.replicate N none, 0, 0⟩

/-- Embedding of `StaticQueue::push` (single-producer operation): full check
by wrapping difference, write into slot `head & (N - 1)`, increment `head`. -/
def push {α : Type} {N : Nat} (q : StaticQueue α N) (item : α) :
    StaticQueue α N × Except α Unit :=
  if (q.head + U64 - q.tail) % U64 ≥ N then
    (q, Except.error item)
  else
    (⟨q.buffer.set (q.head &&& (N - 1)) (some item),
      (q.head + 1) % U64, q.tail⟩, Except.ok ())

/-- Embedding of `StaticQueue::pop` in a single-threaded run: empty check,
then claim slot `tail & (N - 1)` and read it by value.  The outer `none`
means the queue was empty; `some none` would be a read of an uninitialized
slot (undefined behaviour in the source). -/
def pop {α : Type} {N : Nat} (q : StaticQueue α N) :
    StaticQueue α N × Option (Option α) :=
  if q.tail = q.head then
    (q, none)
  else
    (⟨q.buffer, q.head, (q.tail + 1) % U64⟩,
      some (q.buffer.getD (q.tail &&& (N - 1)) none))

/-- States reachable from `new` by single-threaded sequences of `push` and
`pop` calls. -/
inductive Reachable {α : Type} {N : Nat} : StaticQueue α N → Prop where
  | init : Reachable (new α N)
  | push (q : StaticQueue α N) (item : α) (h : Reachable q) :
      Reachable (q.push item).1
  | pop (q : StaticQueue α N) (h : Reachable q) : Reachable (q.pop).1

/-- Wrapping difference `head - tail` of the two counters. -/
def wdiff {α : Type} {N : Nat} (q : StaticQueue α N) : Nat :=
  (q.head + U64 - q.tail) % U64

end StaticQueue

/-! ## DecodingGraph (src/crates/qcu_core/src/graph.rs) -/

def U32 : Nat := 2 ^ 32

structure DecodingGraph where
  fast_edges : List (Nat × Nat)
  adj_offsets : List Nat
  adj_targets : List Nat
  num_nodes_capacity : Nat
  max_node_id : Nat
deriving DecidableEq, Repr

namespace DecodingGraph

/-- Embedding of `DecodingGraph::new` / `new_in`: empty edge and adjacency
storage (the pre-allocated capacity of the Rust vectors has no observable
effect in the embedding). -/
def new (capacity : Nat) : DecodingGraph :=
  ⟨[], [], [], capacity, 0⟩

/-- Embedding of `DecodingGraph::ensure_size`. -/
def ensure_size (g : DecodingGraph) (n : Nat) : DecodingGraph :=
  if n > g.num_nodes_capacity then { g with num_nodes_capacity := n } else g

/-- Embedding of `DecodingGraph::add_edge`: update the capacity hint and
`max_node_id` from the full (usize) endpoints, then append the endpoints
narrowed to `u32`.  The weight is accepted and dropped, and the Rust
function's always-`Ok` result is omitted. -/
def add_edge (g : DecodingGraph) (u v : Nat) (_weight : Float) : DecodingGraph :=
  let max_idx := if u > v then u else v
  let g1 := g.ensure_size (max_idx + 1)
  let g2 :=
    if max_idx ≥ g1.max_node_id then { g1 with max_node_id := max_idx + 1 }
    else g1
  { g2 with fast_edges := g2.fast_edges ++ [(u % U32, v % U32)] }

/-- Embedding of `DecodingGraph::num_nodes`. -/
def num_nodes (g : DecodingGraph) : Nat := g.max_node_id

end DecodingGraph

/-- Checked write `l[i] = v` of a slice element (panics in the source when
`i` is out of bounds). -/
def setChecked (l : List Nat) (i v : Nat) : Option (List Nat) :=
  if i < l.length then some (l.set i v) else none

namespace DecodingGraph

end DecodingGraph

structure UnionFind where
  parent : List Nat
  rank : List Nat
  parity : List Nat
deriving DecidableEq, Repr

/-- Continuation helper for a checked access inside a `DRes` computation. -/
def bindO {α β : Type} (o : Option α) (k : α → DRes β) : DRes β :=
  match o with
  | none => DRes.oob
  | some a => k a

namespace UnionFind

/-- Initialization loop of `UnionFind::new`:
`for i in 0..parent.len() { parent[i] = i; rank[i] = 0 }`; the write to
`rank[i]` is a checked access. -/
def initPR : List Nat → List Nat → List Nat → Option (List Nat × List Nat)
  | [], parent, rank => some (parent, rank)
  | i :: is, parent, rank =>
    if i < rank.length then initPR is (parent.set i i) (rank.set i 0)
    else none

/-- Embedding of `UnionFind::new`: identity parents, zero ranks, zero parity
words (`parity.fill(0)`). -/
def new (parent rank parity : List Nat) : Option UnionFind :=
  match initPR (List.range parent.length) parent rank with
  | none => none
  | some (parent1, rank1) =>
    some ⟨parent1, rank1, List.replicate parity.length 0⟩

/-- Loop body of `UnionFind::find` with explicit fuel: path halving
(`parent[i] = parent[parent[i]]`) while walking to the root. -/
def findAux : Nat → List Nat → Nat → DRes (List Nat × Nat)
  | 0, _, _ => DRes.fuelOut
  | fuel + 1, parent, i =>
    match parent[i]? with
    | none => DRes.oob
    | some p =>
      if p = i then DRes.ok (parent, i)
      else
        match parent[p]? with
        | none => DRes.oob
        | some gp => findAux fuel (parent.set i gp) p

/-- Embedding of `UnionFind::find`.  The fuel `parent.length + 1` is enough
for every parent forest (proven below); the loop itself has no bound in the
source. -/
def find (parent : List Nat) (i : Nat) : DRes (List Nat × Nat) :=
  findAux (parent.length + 1) parent i

/-- Merge step of `UnionFind::union` after the two finds: read the two
parity bits and ranks, attach the shallower root under the deeper (ties
attach `root_j` under `root_i` and bump `rank[root_i]`, a wrapping `u8`
increment), and toggle the surviving root's parity bit when the absorbed
root carried odd parity. -/
def unionMerge (st : UnionFind) (par2 : List Nat) (root_i root_j : Nat) :
    DRes (UnionFind × Bool) :=
  if root_i ≠ root_j then
    bindO (BitPack.get st.parity root_i) fun p_i =>
    bindO (BitPack.get st.parity root_j) fun p_j =>
    bindO st.rank[root_i]? fun r_i =>
    bindO st.rank[root_j]? fun r_j =>
    if r_i < r_j then
      bindO (setChecked par2 root_i root_j) fun par3 =>
      if p_i then
        bindO (BitPack.toggle st.parity root_j) fun parity1 =>
        DRes.ok (⟨par3, st.rank, parity1⟩, true)
      else
        DRes.ok (⟨par3, st.rank, st.parity⟩, true)
    else
      bindO (setChecked par2 root_j root_i) fun par3 =>
      let finish : List Nat → DRes (UnionFind × Bool) := fun parity1 =>
        if r_i = r_j then
          bindO (setChecked st.rank root_i ((r_i + 1) % 256)) fun rank1 =>
          DRes.ok (⟨par3, rank1, parity1⟩, true)
        else
          DRes.ok (⟨par3, st.rank, parity1⟩, true)
      if p_j then
        bindO (BitPack.toggle st.parity root_i) finish
      else
        finish st.parity
  else
    DRes.ok (⟨par2, st.rank, st.parity⟩, false)

/-- Result-propagating bind for the `DRes` computations (the explicit
match-and-propagate of the embedded control flow). -/
def bindR {α β : Type} : DRes α → (α → DRes β) → DRes β
  | DRes.ok a, k => k a
  | DRes.oob, _ => DRes.oob
  | DRes.fuelOut, _ => DRes.fuelOut

/-- Embedding of `UnionFind::union`: two finds, then merge by rank with the
parity of the absorbed root toggled into the surviving root. -/
def union (st : UnionFind) (i j : Nat) : DRes (UnionFind × Bool) :=
  bindR (find st.parent i) fun pr1 =>
  bindR (find pr1.1 j) fun pr2 =>
  unionMerge st pr2.1 pr1.2 pr2.2

/-- Embedding of `UnionFind::toggle_parity`: find the root, flip its bit. -/
def toggle_parity (st : UnionFind) (i : Nat) : DRes UnionFind :=
  bindR (find st.parent i) fun pr =>
  bindO (BitPack.toggle st.parity pr.2) fun parity1 =>
  DRes.ok ⟨pr.1, st.rank, parity1⟩

/-- Embedding of `UnionFind::set_parity`: find the root, write its bit. -/
def set_parity (st : UnionFind) (i : Nat) (is_odd : Bool) : DRes UnionFind :=
  bindR (find st.parent i) fun pr =>
  bindO (BitPack.set st.parity pr.2 is_odd) fun parity1 =>
  DRes.ok ⟨pr.1, st.rank, parity1⟩

end UnionFind

/-! ## UnionFindDecoder (src/crates/qcu_core/src/decoder.rs)

Embedding of `UnionFindDecoder::<N>::solve_into` with the `StaticVec`-backed
correction buffer of capacity `cap` (`push_correction` maps a rejected push
to `QecError::BufferOverflow`).  The unchecked `touched` accesses and all
checked slice accesses surface as the `oob` result; the unbounded `loop`
gets fuel `num_nodes + 1`, proven sufficient. -/

inductive SRes (α : Type) where
  | ok (a : α)
  | err (e : QecError)
  | oob
  | fuelOut
deriving DecidableEq, Repr

/-- Lift a DSU-level result into a decoder-level result. -/
def liftD {α : Type} : DRes α → SRes α
  | DRes.ok a => SRes.ok a
  | DRes.oob => SRes.oob
  | DRes.fuelOut => SRes.fuelOut

/-- Continuation on a checked access inside a decoder computation. -/
def bindOS {α β : Type} (o : Option α) (k : α → SRes β) : SRes β :=
  match o with
  | none => SRes.oob
  | some a => k a

/-- Continuation on a DSU operation inside a decoder computation. -/
def bindDS {α β : Type} (d : DRes α) (k : α → SRes β) : SRes β :=
  match d with
  | DRes.ok a => k a
  | DRes.oob => SRes.oob
  | DRes.fuelOut => SRes.fuelOut

/-- Mutable state of one solve call: the DSU slices, the touched flags, the
accumulated corrections and the per-pass change flag. -/
structure SweepState where
  st : UnionFind
  touched : List Nat
  out : List (Nat × Nat)
  changed : Bool
deriving DecidableEq, Repr

namespace UnionFindDecoder

/-- Buffer initialization loop of `solve_into`:
`for i in 0..num_nodes { parent.push(i); rank.push(0); touched.push(0) }`
(after the three `clear` calls), push results discarded. -/
def initLoop (N : Nat) (num_nodes : Nat) :
    StaticVec Nat N × StaticVec Nat N × StaticVec Nat N :=
  (List.range num_nodes).foldl
    (fun s i => (s.1.pushD i, s.2.1.pushD 0, s.2.2.pushD 0))
    (StaticVec.new Nat N, StaticVec.new Nat N, StaticVec.new Nat N)

/-- Parity-word initialization loop of `solve_into`:
`for _ in 0..num_u64 { parity.push(0) }` into the cleared parity vector of
capacity `N.div_ceil(64)`. -/
def parityInit (N : Nat) (num_u64 : Nat) : StaticVec Nat ((N + 63) / 64) :=
  (List.range num_u64).foldl (fun v _ => v.pushD 0)
    (StaticVec.new Nat ((N + 63) / 64))

/-- Syndrome injection loop of `solve_into`: for each listed detector index
below `num_nodes`, toggle its cluster parity and mark it touched (the
`touched` write is `get_unchecked_mut` in the source). -/
def injectGo (num_nodes : Nat) :
    List Nat → UnionFind → List Nat → SRes (UnionFind × List Nat)
  | [], st, touched => SRes.ok (st, touched)
  | idx :: rest, st, touched =>
    if idx < num_nodes then
      bindDS (UnionFind.toggle_parity st idx) fun st1 =>
      bindOS (setChecked touched idx 1) fun touched1 =>
      injectGo num_nodes rest st1 touched1
    else
      injectGo num_nodes rest st touched

/-- Body of the edge sweep for a single edge `(u, v)`: skip when neither
endpoint is touched (unchecked reads), otherwise find both roots (mutating
the parent array), and when the roots differ and at least one cluster is odd
run `union`, emit the correction, and mark both endpoints touched. -/
def edgeStep (cap : Nat) (s : SweepState) (e : Nat × Nat) : SRes SweepState :=
  let u := e.1
  let v := e.2
  bindOS s.touched[u]? fun tu =>
  bindOS s.touched[v]? fun tv =>
  if tu = 0 ∧ tv = 0 then SRes.ok s
  else
    bindDS (UnionFind.find s.st.parent u) fun pr1 =>
    bindDS (UnionFind.find pr1.1 v) fun pr2 =>
    if pr1.2 ≠ pr2.2 then
      bindOS (BitPack.get s.st.parity pr1.2) fun u_active =>
      bindOS (BitPack.get s.st.parity pr2.2) fun v_active =>
      if u_active || v_active then
        bindDS (UnionFind.union ⟨pr2.1, s.st.rank, s.st.parity⟩ u v) fun ub =>
        if ub.2 then
          if s.out.length < cap then
            bindOS (setChecked s.touched u 1) fun touched1 =>
            bindOS (setChecked touched1 v 1) fun touched2 =>
            SRes.ok ⟨ub.1, touched2, s.out ++ [(u, v)], true⟩
          else
            SRes.err QecError.BufferOverflow
        else
          SRes.ok ⟨ub.1, s.touched, s.out, s.changed⟩
      else
        SRes.ok ⟨⟨pr2.1, s.st.rank, s.st.parity⟩, s.touched, s.out, s.changed⟩
    else
      SRes.ok ⟨⟨pr2.1, s.st.rank, s.st.parity⟩, s.touched, s.out, s.changed⟩

/-- One full pass of the fixpoint loop over the edge list. -/
def sweepGo (cap : Nat) : List (Nat × Nat) → SweepState → SRes SweepState
  | [], s => SRes.ok s
  | e :: es, s =>
    match edgeStep cap s e with
    | SRes.ok s1 => sweepGo cap es s1
    | SRes.err q => SRes.err q
    | SRes.oob => SRes.oob
    | SRes.fuelOut => SRes.fuelOut

/-- The outer `loop { ... if !changed { break } }` of `solve_into` with
explicit fuel; the second component counts the passes performed. -/
def loopFuel (cap : Nat) (edges : List (Nat × Nat)) :
    Nat → SweepState → SRes (SweepState × Nat)
  | 0, _ => SRes.fuelOut
  | fuel + 1, s =>
    match sweepGo cap edges { s with changed := false } with
    | SRes.ok s1 =>
      if s1.changed then
        match loopFuel cap edges fuel s1 with
        | SRes.ok (s2, p) => SRes.ok (s2, p + 1)
        | SRes.err q => SRes.err q
        | SRes.oob => SRes.oob
        | SRes.fuelOut => SRes.fuelOut
      else
        SRes.ok (s1, 1)
    | SRes.err q => SRes.err q
    | SRes.oob => SRes.oob
    | SRes.fuelOut => SRes.fuelOut

/-- Embedding of `UnionFindDecoder::<N>::solve_into` together with the
number of passes its fixpoint loop performed. -/
def solveIntoAux (N : Nat) (g : DecodingGraph) (syndrome_indices : List Nat)
    (cap : Nat) : SRes (List (Nat × Nat)) × Nat :=
  let num_nodes := min g.num_nodes N
  let bufs := initLoop N num_nodes
  let num_u64 := (num_nodes + 63) / 64
  let parv := parityInit N num_u64
  match UnionFind.new bufs.1.data bufs.2.1.data parv.data with
  | none => (SRes.oob, 0)
  | some dsu =>
    match injectGo num_nodes syndrome_indices dsu bufs.2.2.data with
    | SRes.ok (dsu1, touched1) =>
      match loopFuel cap g.fast_edges (num_nodes + 1)
          ⟨dsu1, touched1, [], false⟩ with
      | SRes.ok (s, passes) => (SRes.ok s.out, passes)
      | SRes.err q => (SRes.err q, 0)
      | SRes.oob => (SRes.oob, 0)
      | SRes.fuelOut => (SRes.fuelOut, 0)
    | SRes.err q => (SRes.err q, 0)
    | SRes.oob => (SRes.oob, 0)
    | SRes.fuelOut => (SRes.fuelOut, 0)

/-- Result of `solve_into` (corrections on success). -/
def solveInto (N : Nat) (g : DecodingGraph) (syndrome_indices : List Nat)
    (cap : Nat) : SRes (List (Nat × Nat)) :=
  (solveIntoAux N g syndrome_indices cap).1

end UnionFindDecoder

/-- Convenience constructor for the graphs of the concrete scenarios: start
from `DecodingGraph::new` and `add_edge` every listed pair with unit
weight. -/
def addEdges (capacity : Nat) (es : List (Nat × Nat)) : DecodingGraph :=
  es.foldl (fun g e => g.add_edge e.1 e.2 1.0) (DecodingGraph.new capacity)

/-! ## Parent-forest theory

Specification-level notions for reasoning about the DSU: the total successor
function `parentOf` (out-of-range nodes are their own parents), its iterates,
the canonical root `rootD` (the value after `length` steps), and the
well-formedness predicate `WF` stating that every in-range node has an
in-range parent and reaches a fixpoint. -/

def parentOf (par : List Nat) (i : Nat) : Nat := par.getD i i

def isRoot (par : List Nat) (i : Nat) : Prop := parentOf par i = i

instance (par : List Nat) (i : Nat) : Decidable (isRoot par i) :=
  inferInstanceAs (Decidable (parentOf par i = i))

def iterP (par : List Nat) (k i : Nat) : Nat := (parentOf par)^[k] i

def rootD (par : List Nat) (i : Nat) : Nat := iterP par par.length i

/-- Decidable parent-forest invariant: in-range parents, and the parent chain
of every node is at a fixpoint after `length` steps. -/
def WF (par : List Nat) : Prop :=
  ∀ i, i < par.length → parentOf par i < par.length ∧ isRoot par (rootD par i)

instance (par : List Nat) : Decidable (WF par) :=
  Nat.decidableBallLT par.length fun i _ =>
    parentOf par i < par.length ∧ isRoot par (rootD par i)

/-- Convenient unbounded form of the reachability half of the invariant. -/
def WFU (par : List Nat) : Prop :=
  ∀ i, i < par.length →
    parentOf par i < par.length ∧ ∃ m, isRoot par (iterP par m i)

/-- Surviving root chosen by `union` once the two clusters differ: the root
of `j` when the root of `i` has strictly smaller rank, the root of `i`
otherwise (ties included). -/
def unionNewRoot (st : UnionFind) (i j : Nat) : Nat :=
  if st.rank.getD (rootD st.parent i) 0 < st.rank.getD (rootD st.parent j) 0
  then rootD st.parent j
  else rootD st.parent i

/-- Rank list after a successful `union`: on equal root ranks the rank of
the root of `i` is incremented (a wrapping `u8` add), otherwise unchanged. -/
def unionNewRank (st : UnionFind) (i j : Nat) : List Nat :=
  if st.rank.getD (rootD st.parent i) 0 = st.rank.getD (rootD st.parent j) 0
  then st.rank.set (rootD st.parent i)
    ((st.rank.getD (rootD st.parent i) 0 + 1) % 256)
  else st.rank

/-! ## Root counting -/

def numRoots (par : List Nat) : Nat :=
  ((Finset.range par.length).filter (fun r => isRoot par r)).card

/-! ## Sweep loop invariant -/

/-- Loop invariant of the decoder's fixpoint sweep: all four DSU buffers have
their initialized sizes, the parent list is a well-formed forest, and every
emitted correction accounts for exactly one merged root. -/
def SweepInv (n : Nat) (s : SweepState) : Prop :=
  s.st.parent.length = n ∧ WFU s.st.parent ∧ s.st.rank.length = n ∧
  n ≤ 64 * s.st.parity.length ∧ s.touched.length = n ∧
  s.out.length + numRoots s.st.parent = n

end QCU

namespace QCU

/-! ## List access helpers

Small bridging lemmas between `List.getD` (the total view of slice reads used
in specification-level functions) and `List.set`. -/

theorem getD_set_self {α : Type} {l : List α} {i : Nat} {v d : α}
    (h : i < l.length) : (l.set i v).getD i d = v := by
  rw [List.getD_eq_getElem?_getD, List.getElem?_set_self h]
  rfl

theorem getD_set_ne {α : Type} {l : List α} {i j : Nat} {v d : α}
    (h : i ≠ j) : (l.set i v).getD j d = l.getD j d := by
  rw [List.getD_eq_getElem?_getD, List.getElem?_set_ne h,
    ← List.getD_eq_getElem?_getD]

theorem getD_eq_of_lt {α : Type} {l : List α} {i : Nat} {d : α}
    (h : i < l.length) : l.getD i d = l.get ⟨i, h⟩ := by
  rw [List.getD_eq_getElem (l := l) (d := d) h]
  rfl

theorem beq_eq_decide (a b : Nat) : (a == b) = decide (a = b) := by
  by_cases h : a = b <;> simp [h]

theorem word_beq_eq_testBit (w b : Nat) :
    (((w >>> b) &&& 1) == 1) = Nat.testBit w b := by
  rw [Nat.and_one_is_mod, Nat.shiftRight_eq_div_pow, Nat.testBit_to_div_mod,
    beq_eq_decide]

theorem BitPack.get_eq_getBitD {storage : List Nat} {index : Nat}
    (h : index / 64 < storage.length) :
    BitPack.get storage index = some (getBitD storage index) := by
  rw [BitPack.get, List.getElem?_eq_getElem h]
  simp only [word_beq_eq_testBit, getBitD, List.getD_eq_getElem?_getD,
    List.getElem?_eq_getElem h]
  rfl

theorem BitPack.get_none {storage : List Nat} {index : Nat}
    (h : storage.length ≤ index / 64) :
    BitPack.get storage index = none := by
  rw [BitPack.get, List.getElem?_eq_none h]

/-- Two bit indices agree exactly when their word and in-word parts agree. -/
theorem bit_index_eq_iff {i j : Nat} :
    i = j ↔ (i / 64 = j / 64 ∧ i % 64 = j % 64) := by
  constructor
  · rintro rfl
    exact ⟨rfl, rfl⟩
  · rintro ⟨h1, h2⟩
    omega

theorem testBit_shifted_one (b k : Nat) :
    Nat.testBit (1 <<< b) k = decide (b = k) := by
  rw [Nat.shiftLeft_eq, one_mul, Nat.testBit_two_pow]

theorem BitPack.toggle_eq {storage : List Nat} {index : Nat}
    (h : index / 64 < storage.length) :
    BitPack.toggle storage index =
      some (storage.set (index / 64)
        (storage.getD (index / 64) 0 ^^^ (1 <<< (index % 64)))) := by
  rw [BitPack.toggle, List.getElem?_eq_getElem h, getD_eq_of_lt h]
  rfl

theorem getBitD_toggle {storage t : List Nat} {index : Nat}
    (h : index / 64 < storage.length)
    (ht : BitPack.toggle storage index = some t) :
    ∀ j, getBitD t j = ((getBitD storage j) ^^ (index == j)) := by
  rw [BitPack.toggle_eq h] at ht
  intro j
  cases ht
  by_cases hij : index = j
  · subst hij
    rw [getBitD, getD_set_self h, getBitD, Nat.testBit_xor, testBit_shifted_one]
    simp
  · rw [beq_eq_decide]
    simp only [hij, decide_False, Bool.xor_false]
    by_cases hw : index / 64 = j / 64
    · rw [getBitD, getBitD, ← hw, getD_set_self h, Nat.testBit_xor,
        testBit_shifted_one]
      have hb : ¬index % 64 = j % 64 := fun hb =>
        hij (bit_index_eq_iff.mpr ⟨hw, hb⟩)
      simp [hb]
    · rw [getBitD, getD_set_ne hw, getBitD]

theorem toggle_length {storage t : List Nat} {index : Nat}
    (ht : BitPack.toggle storage index = some t) :
    t.length = storage.length := by
  rw [BitPack.toggle] at ht
  cases hg : storage[index / 64]? with
  | none => rw [hg] at ht; cases ht
  | some w =>
    rw [hg] at ht
    cases ht
    exact List.length_set ..

namespace StaticVec

theorem push_lt {α : Type} {N : Nat} {v : StaticVec α N} {item : α}
    (h : v.data.length < N) :
    v.push item = (⟨v.data ++ [item]⟩, Except.ok ()) := by
  rw [push, if_pos h]

theorem push_full {α : Type} {N : Nat} {v : StaticVec α N} {item : α}
    (h : ¬v.data.length < N) :
    v.push item = (v, Except.error item) := by
  rw [push, if_neg h]

/-- Folding `pushD` over a list that fits in the remaining capacity appends
the whole list. -/
theorem foldl_pushD {α : Type} {N : Nat} (l : List α) (v : StaticVec α N)
    (h : v.data.length + l.length ≤ N) :
    (l.foldl pushD v) = ⟨v.data ++ l⟩ := by
  induction l generalizing v with
  | nil =>
    cases v
    simp
  | cons x xs ih =>
    simp only [List.length_cons] at h
    rw [List.foldl_cons]
    have hx : v.data.length < N := by omega
    have hpd : pushD v x = ⟨v.data ++ [x]⟩ := by
      rw [pushD, push_lt hx]
    have hlen : (v.data ++ [x]).length + xs.length ≤ N := by
      rw [List.length_append]
      simp only [List.length_singleton]
      omega
    rw [hpd, ih ⟨v.data ++ [x]⟩ hlen]
    simp

end StaticVec

namespace StaticQueue

/-- Basic bounds maintained by every single-threaded reachable queue state:
both counters stay below `2 ^ 64` and the wrapping occupancy never exceeds
the capacity. -/
theorem reachable_bounds {α : Type} {N : Nat} (q : StaticQueue α N)
    (hq : Reachable q) :
    q.head < U64 ∧ q.tail < U64 ∧ wdiff q ≤ N := by
  induction hq with
  | init =>
    refine ⟨by simp [new, U64], by simp [new, U64], ?_⟩
    simp [new, wdiff, U64]
  | push q item _ ih =>
    obtain ⟨h1, h2, h3⟩ := ih
    rw [push]
    by_cases hfull : (q.head + U64 - q.tail) % U64 ≥ N
    · rw [if_pos hfull]
      exact ⟨h1, h2, h3⟩
    · rw [if_neg hfull]
      simp only [not_le] at hfull
      refine ⟨by simp [Nat.mod_lt _ (by simp [U64] : 0 < U64)], h2, ?_⟩
      simp only [wdiff, U64] at h3 hfull ⊢
      omega
  | pop q _ ih =>
    obtain ⟨h1, h2, h3⟩ := ih
    rw [pop]
    by_cases hempty : q.tail = q.head
    · rw [if_pos hempty]
      exact ⟨h1, h2, h3⟩
    · rw [if_neg hempty]
      refine ⟨h1, by simp [Nat.mod_lt _ (by simp [U64] : 0 < U64)], ?_⟩
      simp only [wdiff, U64] at h1 h2 h3 ⊢
      omega

end StaticQueue

@[simp]
theorem bindO_some {α β : Type} (a : α) (k : α → DRes β) :
    bindO (some a) k = k a := rfl

@[simp]
theorem bindO_none {α β : Type} (k : α → DRes β) :
    bindO none k = DRes.oob := rfl

namespace UnionFind

@[simp]
theorem bindR_ok {α β : Type} (a : α) (k : α → DRes β) :
    bindR (DRes.ok a) k = k a := rfl

@[simp]
theorem bindR_oob {α β : Type} (k : α → DRes β) :
    bindR DRes.oob k = DRes.oob := rfl

@[simp]
theorem bindR_fuelOut {α β : Type} (k : α → DRes β) :
    bindR DRes.fuelOut k = DRes.fuelOut := rfl

end UnionFind

@[simp]
theorem bindOS_some {α β : Type} (a : α) (k : α → SRes β) :
    bindOS (some a) k = k a := rfl

@[simp]
theorem bindOS_none {α β : Type} (k : α → SRes β) :
    bindOS none k = SRes.oob := rfl

@[simp]
theorem bindDS_ok {α β : Type} (a : α) (k : α → SRes β) :
    bindDS (DRes.ok a) k = k a := rfl

@[simp]
theorem bindDS_oob {α β : Type} (k : α → SRes β) :
    bindDS DRes.oob k = SRes.oob := rfl

@[simp]
theorem bindDS_fuelOut {α β : Type} (k : α → SRes β) :
    bindDS DRes.fuelOut k = SRes.fuelOut := rfl

theorem parentOf_out {par : List Nat} {i : Nat} (h : par.length ≤ i) :
    parentOf par i = i := by
  rw [parentOf, List.getD_eq_getElem?_getD, List.getElem?_eq_none h]
  rfl

theorem iterP_zero (par : List Nat) (i : Nat) : iterP par 0 i = i := rfl

theorem iterP_one (par : List Nat) (i : Nat) :
    iterP par 1 i = parentOf par i := rfl

theorem iterP_succ (par : List Nat) (k i : Nat) :
    iterP par (k + 1) i = iterP par k (parentOf par i) :=
  Function.iterate_succ_apply (parentOf par) k i

theorem iterP_succ_outer (par : List Nat) (k i : Nat) :
    iterP par (k + 1) i = parentOf par (iterP par k i) :=
  Function.iterate_succ_apply' (parentOf par) k i

theorem iterP_add (par : List Nat) (a b i : Nat) :
    iterP par (a + b) i = iterP par a (iterP par b i) :=
  Function.iterate_add_apply (parentOf par) a b i

theorem iterP_of_isRoot {par : List Nat} {r : Nat} (h : isRoot par r) :
    ∀ k, iterP par k r = r := by
  intro k
  induction k with
  | zero => rfl
  | succ k ih => rw [iterP_succ_outer, ih]; exact h

theorem iterP_stable {par : List Nat} {m i : Nat}
    (h : isRoot par (iterP par m i)) {k : Nat} (hk : m ≤ k) :
    iterP par k i = iterP par m i := by
  have : k = (k - m) + m := by omega
  rw [this, iterP_add, iterP_of_isRoot h]

theorem iterP_lt {par : List Nat} (hwf : WFU par) {i : Nat}
    (hi : i < par.length) : ∀ k, iterP par k i < par.length := by
  intro k
  induction k with
  | zero => exact hi
  | succ k ih =>
    rw [iterP_succ_outer]
    exact (hwf _ ih).1

theorem iterP_out {par : List Nat} {i : Nat} (h : par.length ≤ i) :
    ∀ k, iterP par k i = i := by
  intro k
  induction k with
  | zero => rfl
  | succ k ih => rw [iterP_succ_outer, ih]; exact parentOf_out h

/-- Periodicity from a repeat on the chain: values repeat with period
`b - a` from position `a` onward. -/
theorem iterP_periodic {par : List Nat} {i a b : Nat} (hab : a < b)
    (heq : iterP par a i = iterP par b i) :
    ∀ c j, a ≤ j → iterP par (j + c * (b - a)) i = iterP par j i := by
  intro c
  induction c with
  | zero => intro j _; simp
  | succ c ih =>
    intro j hj
    have h1 : j + (c + 1) * (b - a) = (j - a + c * (b - a)) + b := by
      rw [Nat.succ_mul]
      omega
    have h2 : iterP par ((j - a + c * (b - a)) + b) i =
        iterP par (j - a + c * (b - a)) (iterP par b i) := iterP_add ..
    rw [h1, h2, ← heq, ← iterP_add]
    have h3 : j - a + c * (b - a) + a = j + c * (b - a) := by omega
    rw [h3, ih j hj]

/-- Heart of the invariant: if a node reaches a fixpoint at all, it is at a
fixpoint after `length` steps.  Uses a pigeonhole repeat on the chain. -/
theorem rootD_isRoot {par : List Nat} (hwf : WFU par) (i : Nat) :
    isRoot par (rootD par i) := by
  by_cases hi : i < par.length
  · obtain ⟨-, m, hm⟩ := hwf i hi
    set n := par.length with hn
    by_cases hmn : m ≤ n
    · rw [rootD, iterP_stable hm hmn]
      exact hm
    · have hmaps : ∀ t ∈ Finset.range (n + 1),
          iterP par t i ∈ Finset.range n := by
        intro t _
        exact Finset.mem_range.mpr (iterP_lt hwf hi t)
      have hcard : (Finset.range n).card < (Finset.range (n + 1)).card := by
        simp
      obtain ⟨a, ha, b, hb, hab, hfab⟩ :=
        Finset.exists_ne_map_eq_of_card_lt_of_maps_to hcard hmaps
      rw [Finset.mem_range] at ha hb
      rcases Nat.lt_or_ge a b with hlt | hge
      · have hper := iterP_periodic hlt hfab
        have hbig : m ≤ n + m * (b - a) := by
          have hmm : m ≤ m * (b - a) := Nat.le_mul_of_pos_right m (by omega)
          omega
        have e1 : iterP par (n + m * (b - a)) i = iterP par n i :=
          hper m n (by omega)
        have e2 : iterP par (n + m * (b - a)) i = iterP par m i :=
          iterP_stable hm hbig
        rw [rootD, ← hn, ← e1, e2]
        exact hm
      · have hba : b < a := by omega
        have hper := iterP_periodic hba hfab.symm
        have hbig : m ≤ n + m * (a - b) := by
          have hmm : m ≤ m * (a - b) := Nat.le_mul_of_pos_right m (by omega)
          omega
        have e1 : iterP par (n + m * (a - b)) i = iterP par n i :=
          hper m n (by omega)
        have e2 : iterP par (n + m * (a - b)) i = iterP par m i :=
          iterP_stable hm hbig
        rw [rootD, ← hn, ← e1, e2]
        exact hm
  · rw [rootD, iterP_out (by omega)]
    rw [isRoot]
    exact parentOf_out (by omega)

/-- Uniqueness of the root reached along a chain. -/
theorem rootD_unique {par : List Nat} (hwf : WFU par) {k m R : Nat}
    (hR : isRoot par R) (hreach : iterP par m k = R) :
    rootD par k = R := by
  set n := par.length with hn
  rcases le_or_lt m n with hmn | hnm
  · rw [rootD, ← hn, ← hreach, iterP_stable (hreach ▸ hR) hmn]
  · have h1 : iterP par m k = iterP par n k := by
      have hroot : isRoot par (iterP par n k) := rootD_isRoot hwf k
      exact iterP_stable hroot (by omega)
    rw [rootD, ← hn, ← h1, hreach]

theorem rootD_of_isRoot {par : List Nat} {i : Nat} (h : isRoot par i) :
    rootD par i = i := iterP_of_isRoot h par.length

theorem rootD_parentOf {par : List Nat} (hwf : WFU par) (i : Nat) :
    rootD par (parentOf par i) = rootD par i := by
  have h1 : iterP par (par.length + 1) i = rootD par (parentOf par i) := by
    rw [iterP_succ]
    rfl
  have h2 : iterP par (par.length + 1) i = rootD par i := by
    rw [iterP_succ_outer]
    exact rootD_isRoot hwf i
  rw [← h1, h2]

theorem rootD_lt {par : List Nat} (hwf : WFU par) {i : Nat}
    (hi : i < par.length) : rootD par i < par.length :=
  iterP_lt hwf hi par.length

theorem isRoot_iff_rootD {par : List Nat} (hwf : WFU par) {j : Nat} :
    isRoot par j ↔ rootD par j = j := by
  constructor
  · exact rootD_of_isRoot
  · intro h
    have := rootD_isRoot hwf j
    rw [h] at this
    exact this

theorem wfu_of_wf {par : List Nat} (h : WF par) : WFU par := by
  intro i hi
  exact ⟨(h i hi).1, par.length, (h i hi).2⟩

theorem wf_of_wfu {par : List Nat} (h : WFU par) : WF par := by
  intro i hi
  exact ⟨(h i hi).1, rootD_isRoot h i⟩

theorem getElem?_parentOf {par : List Nat} {x : Nat} (hx : x < par.length) :
    par[x]? = some (parentOf par x) := by
  rw [List.getElem?_eq_getElem hx]
  congr 1
  rw [parentOf, getD_eq_of_lt hx]
  rfl

theorem findAux_step {fuel : Nat} {par : List Nat} {i : Nat}
    (hi : i < par.length) (hp : parentOf par i < par.length) :
    UnionFind.findAux (fuel + 1) par i =
      if parentOf par i = i then DRes.ok (par, i)
      else UnionFind.findAux fuel
        (par.set i (parentOf par (parentOf par i))) (parentOf par i) := by
  rw [UnionFind.findAux, getElem?_parentOf hi]
  show (if parentOf par i = i then DRes.ok (par, i)
    else match par[parentOf par i]? with
      | none => DRes.oob
      | some gp => UnionFind.findAux fuel (par.set i gp) (parentOf par i)) = _
  rw [getElem?_parentOf hp]

theorem parentOf_set_self {par : List Nat} {a v : Nat} (ha : a < par.length) :
    parentOf (par.set a v) a = v := by
  rw [parentOf, getD_set_self ha]

theorem parentOf_set_ne {par : List Nat} {a v x : Nat} (hx : x ≠ a) :
    parentOf (par.set a v) x = parentOf par x := by
  rw [parentOf, getD_set_ne (fun h => hx h.symm), parentOf]

theorem isRoot_set_of_ne {par : List Nat} {a v r : Nat} (hr : isRoot par r)
    (hne : r ≠ a) : isRoot (par.set a v) r := by
  rw [isRoot, parentOf_set_ne hne]
  exact hr

/-- The original parent chain of a non-root node never returns to the node:
forests have no cycles. -/
theorem chain_avoid {par : List Nat} (hwf : WFU par) {i : Nat}
    (hi : i < par.length) (hnr : ¬isRoot par i) :
    ∀ m, iterP par m (parentOf par i) ≠ i := by
  intro m heq
  have hcyc : iterP par 0 i = iterP par (m + 1) i := by
    rw [iterP_succ, heq]
    rfl
  obtain ⟨-, r, hr⟩ := hwf i hi
  have hper := iterP_periodic (Nat.succ_pos m) hcyc
  have h1 := hper r 0 (le_refl 0)
  have h2 : iterP par (r * (m + 1)) i = i := by
    simpa [iterP_zero] using h1
  have h3 : r ≤ r * (m + 1) := Nat.le_mul_of_pos_right r (Nat.succ_pos m)
  have h4 : iterP par (r * (m + 1)) i = iterP par r i := iterP_stable hr h3
  rw [h2] at h4
  rw [← h4] at hr
  exact hnr hr

/-- A path-halving write on a non-root node preserves the well-formedness of
the forest and the root of every node. -/
theorem halve {par : List Nat} (hwf : WFU par) {i : Nat}
    (hi : i < par.length) (hnr : ¬isRoot par i) :
    WFU (par.set i (parentOf par (parentOf par i))) ∧
    ∀ j, rootD (par.set i (parentOf par (parentOf par i))) j = rootD par j := by
  set gp := parentOf par (parentOf par i) with hgp
  set par2 := par.set i gp with hpar2
  have hlen : par2.length = par.length := List.length_set ..
  have hrootne : ∀ j, rootD par j ≠ i := by
    intro j h
    apply hnr
    rw [← h]
    exact rootD_isRoot hwf j
  have hroot2 : ∀ j, isRoot par2 (rootD par j) := by
    intro j
    exact isRoot_set_of_ne (rootD_isRoot hwf j) (hrootne j)
  have hreach : ∀ k j, isRoot par (iterP par k j) →
      ∃ m, iterP par2 m j = rootD par j := by
    intro k
    induction k using Nat.strong_induction_on with
    | _ k ih =>
      intro j hk
      by_cases hjr : isRoot par j
      · exact ⟨0, (rootD_of_isRoot hjr).symm⟩
      · have hk1 : 1 ≤ k := by
          rcases Nat.eq_zero_or_pos k with h0 | h1
          · rw [h0] at hk
            exact absurd hk hjr
          · exact h1
        by_cases hji : j = i
        · subst hji
          rcases Nat.lt_or_ge k 2 with hk2 | hk2
          · have hkeq : k = 1 := by omega
            rw [hkeq, iterP_one] at hk
            have hgpp : gp = parentOf par j := by
              rw [hgp]
              exact hk
            have hrj : rootD par j = parentOf par j :=
              rootD_unique hwf hk (iterP_one par j)
            refine ⟨1, ?_⟩
            rw [iterP_one, hpar2, parentOf_set_self hi, hgpp, hrj]
          · have hgp2 : iterP par 2 j = gp := by
              rw [hgp, show (2 : Nat) = 1 + 1 from rfl, iterP_succ, iterP_one]
            have hk2r : isRoot par (iterP par (k - 2) gp) := by
              rw [← hgp2, ← iterP_add]
              have : k - 2 + 2 = k := by omega
              rw [this]
              exact hk
            obtain ⟨m, hm⟩ := ih (k - 2) (by omega) gp hk2r
            refine ⟨m + 1, ?_⟩
            rw [iterP_succ, hpar2, parentOf_set_self hi, ← hpar2, hm]
            have e1 : rootD par gp = rootD par (parentOf par j) := by
              rw [hgp]
              exact rootD_parentOf hwf (parentOf par j)
            rw [e1, rootD_parentOf hwf j]
        · have hstep : isRoot par (iterP par (k - 1) (parentOf par j)) := by
            rw [← iterP_succ]
            have : k - 1 + 1 = k := by omega
            rw [this]
            exact hk
          obtain ⟨m, hm⟩ := ih (k - 1) (by omega) (parentOf par j) hstep
          refine ⟨m + 1, ?_⟩
          rw [iterP_succ, hpar2, parentOf_set_ne hji, ← hpar2, hm,
            rootD_parentOf hwf j]
  have hwf2 : WFU par2 := by
    intro x hx
    rw [hlen] at hx
    constructor
    · rw [hlen]
      by_cases hxi : x = i
      · subst hxi
        rw [hpar2, parentOf_set_self hi, hgp]
        exact (hwf _ (hwf _ hi).1).1
      · rw [hpar2, parentOf_set_ne hxi]
        exact (hwf x hx).1
    · obtain ⟨m, hm⟩ := hreach par.length x (rootD_isRoot hwf x)
      exact ⟨m, by rw [hm]; exact hroot2 x⟩
  refine ⟨hwf2, ?_⟩
  intro j
  by_cases hj : j < par.length
  · obtain ⟨m, hm⟩ := hreach par.length j (rootD_isRoot hwf j)
    exact rootD_unique hwf2 (hroot2 j) hm
  · rw [rootD, rootD, hlen, iterP_out (by omega), iterP_out (by omega)]

/-- Rewriting `par` only at nodes off the chain of `p` leaves the chain of
`p` unchanged. -/
theorem iterP_set_off_chain {par : List Nat} {i v p : Nat}
    (hoff : ∀ m, iterP par m p ≠ i) :
    ∀ t, iterP (par.set i v) t p = iterP par t p := by
  intro t
  induction t with
  | zero => rfl
  | succ t ih =>
    rw [iterP_succ_outer, iterP_succ_outer, ih, parentOf_set_ne (hoff t)]

/-- Full correctness of the embedded find loop: with fuel exceeding the
number of steps to the root it returns the canonical root together with a
parent list that is still a well-formed forest with all roots unchanged. -/
theorem findAux_spec :
    ∀ (fuel : Nat) (par : List Nat) (i k : Nat), WFU par →
      i < par.length → isRoot par (iterP par k i) → k < fuel →
      ∃ par2, UnionFind.findAux fuel par i = DRes.ok (par2, rootD par i) ∧
        par2.length = par.length ∧ WFU par2 ∧
        ∀ j, rootD par2 j = rootD par j := by
  intro fuel
  induction fuel with
  | zero =>
    intro par i k _ _ _ hk
    exact absurd hk (Nat.not_lt_zero k)
  | succ fuel ih =>
    intro par i k hwf hi hk hkf
    have hp : parentOf par i < par.length := (hwf i hi).1
    by_cases hroot : parentOf par i = i
    · refine ⟨par, ?_, rfl, hwf, fun j => rfl⟩
      rw [findAux_step hi hp, if_pos hroot, rootD_of_isRoot hroot]
    · have hk1 : 1 ≤ k := by
        rcases Nat.eq_zero_or_pos k with h0 | h1
        · rw [h0] at hk
          exact absurd hk hroot
        · exact h1
      obtain ⟨hwf2, hroots2⟩ := halve hwf hi hroot
      set gp := parentOf par (parentOf par i) with hgp
      set par2 := par.set i gp with hpar2
      have hlen2 : par2.length = par.length := List.length_set ..
      have hoff := chain_avoid hwf hi hroot
      have hchain : iterP par2 (k - 1) (parentOf par i) =
          iterP par (k - 1) (parentOf par i) :=
        iterP_set_off_chain hoff (k - 1)
      have hkroot : isRoot par (iterP par (k - 1) (parentOf par i)) := by
        rw [← iterP_succ]
        have : k - 1 + 1 = k := by omega
        rw [this]
        exact hk
      have hkroot2 : isRoot par2 (iterP par2 (k - 1) (parentOf par i)) := by
        rw [hchain]
        exact isRoot_set_of_ne hkroot (hoff (k - 1))
      obtain ⟨par3, hfind, hlen3, hwf3, hroots3⟩ :=
        ih par2 (parentOf par i) (k - 1) hwf2 (by rw [hlen2]; exact hp)
          hkroot2 (by omega)
      have hred : UnionFind.findAux (fuel + 1) par i =
          UnionFind.findAux fuel par2 (parentOf par i) := by
        rw [findAux_step hi hp, if_neg hroot]
      refine ⟨par3, ?_, by rw [hlen3, hlen2], hwf3, ?_⟩
      · rw [hred, hfind]
        have hre : rootD par2 (parentOf par i) = rootD par i := by
          rw [hroots2 (parentOf par i), rootD_parentOf hwf i]
        rw [hre]
      · intro j
        rw [hroots3 j, hroots2 j]

/-- Correctness of `UnionFind::find` on a well-formed forest. -/
theorem find_spec {par : List Nat} (hwf : WFU par) {i : Nat}
    (hi : i < par.length) :
    ∃ par2, UnionFind.find par i = DRes.ok (par2, rootD par i) ∧
      par2.length = par.length ∧ WFU par2 ∧
      ∀ j, rootD par2 j = rootD par j :=
  findAux_spec (par.length + 1) par i par.length hwf hi
    (rootD_isRoot hwf i) (Nat.lt_succ_self _)

/-- Linking one root under another (the parent write of `union`) preserves
well-formedness and redirects exactly the absorbed cluster. -/
theorem link {par : List Nat} (hwf : WFU par) {a b : Nat}
    (ha : a < par.length) (hb : b < par.length) (hra : isRoot par a)
    (hrb : isRoot par b) (hab : a ≠ b) :
    WFU (par.set a b) ∧
    ∀ k, rootD (par.set a b) k =
      if rootD par k = a then b else rootD par k := by
  set par2 := par.set a b with hpar2
  have hlen : par2.length = par.length := List.length_set ..
  have hrb2 : isRoot par2 b := isRoot_set_of_ne hrb (fun h => hab h.symm)
  have htgt : ∀ j, isRoot par2 (if rootD par j = a then b else rootD par j) := by
    intro j
    by_cases h : rootD par j = a
    · rw [if_pos h]
      exact hrb2
    · rw [if_neg h]
      exact isRoot_set_of_ne (rootD_isRoot hwf j) h
  have hreach : ∀ k j, isRoot par (iterP par k j) →
      ∃ m, iterP par2 m j = (if rootD par j = a then b else rootD par j) := by
    intro k
    induction k using Nat.strong_induction_on with
    | _ k ih =>
      intro j hk
      by_cases hjr : isRoot par j
      · have hrj : rootD par j = j := rootD_of_isRoot hjr
        by_cases hja : j = a
        · subst hja
          refine ⟨1, ?_⟩
          rw [iterP_one, hpar2, parentOf_set_self ha, if_pos hrj]
        · refine ⟨0, ?_⟩
          rw [iterP_zero, if_neg (by rw [hrj]; exact hja), hrj]
      · have hk1 : 1 ≤ k := by
          rcases Nat.eq_zero_or_pos k with h0 | h1
          · rw [h0] at hk
            exact absurd hk hjr
          · exact h1
        have hja : j ≠ a := fun h => hjr (by rw [h]; exact hra)
        have hstep : isRoot par (iterP par (k - 1) (parentOf par j)) := by
          rw [← iterP_succ]
          have : k - 1 + 1 = k := by omega
          rw [this]
          exact hk
        obtain ⟨m, hm⟩ := ih (k - 1) (by omega) (parentOf par j) hstep
        refine ⟨m + 1, ?_⟩
        rw [iterP_succ, hpar2, parentOf_set_ne hja, ← hpar2, hm,
          rootD_parentOf hwf j]
  have hwf2 : WFU par2 := by
    intro x hx
    rw [hlen] at hx
    refine ⟨?_, ?_⟩
    · rw [hlen]
      by_cases hxa : x = a
      · subst hxa
        rw [hpar2, parentOf_set_self ha]
        exact hb
      · rw [hpar2, parentOf_set_ne hxa]
        exact (hwf x hx).1
    · obtain ⟨m, hm⟩ := hreach par.length x (rootD_isRoot hwf x)
      exact ⟨m, by rw [hm]; exact htgt x⟩
  refine ⟨hwf2, ?_⟩
  intro j
  by_cases hj : j < par.length
  · obtain ⟨m, hm⟩ := hreach par.length j (rootD_isRoot hwf j)
    exact rootD_unique hwf2 (htgt j) hm
  · have h1 : rootD par2 j = j := by
      rw [rootD, hlen, iterP_out (by omega)]
    have h2 : rootD par j = j := by
      rw [rootD, iterP_out (by omega)]
    rw [h1, h2, if_neg (by omega)]

theorem getElem?_eq_getD {l : List Nat} {x : Nat} (h : x < l.length) :
    l[x]? = some (l.getD x 0) := by
  rw [List.getElem?_eq_getElem h]
  congr 1
  rw [getD_eq_of_lt h]
  rfl

theorem div64_lt {n len x : Nat} (hx : x < n) (h : n ≤ 64 * len) :
    x / 64 < len := by omega

/-- Full characterization of `UnionFind::union` on a well-formed state. -/
theorem union_spec {st : UnionFind} (hwf : WFU st.parent)
    (hrk : st.parent.length ≤ st.rank.length)
    (hpt : st.parent.length ≤ 64 * st.parity.length)
    {i j : Nat} (hi : i < st.parent.length) (hj : j < st.parent.length) :
    (rootD st.parent i = rootD st.parent j →
      ∃ par2, UnionFind.union st i j =
          DRes.ok (⟨par2, st.rank, st.parity⟩, false) ∧
        par2.length = st.parent.length ∧ WFU par2 ∧
        ∀ k, rootD par2 k = rootD st.parent k) ∧
    (rootD st.parent i ≠ rootD st.parent j →
      ∃ par3 parity2, UnionFind.union st i j =
          DRes.ok (⟨par3, unionNewRank st i j, parity2⟩, true) ∧
        par3.length = st.parent.length ∧ WFU par3 ∧
        (∀ k, rootD par3 k =
          if rootD st.parent k = rootD st.parent i ∨
              rootD st.parent k = rootD st.parent j
          then unionNewRoot st i j
          else rootD st.parent k) ∧
        parity2.length = st.parity.length ∧
        getBitD parity2 (unionNewRoot st i j) =
          xor (getBitD st.parity (rootD st.parent i))
            (getBitD st.parity (rootD st.parent j)) ∧
        (∀ x, x ≠ unionNewRoot st i j →
          getBitD parity2 x = getBitD st.parity x)) := by
  obtain ⟨par1, hf1, hlen1, hwf1, hroots1⟩ := find_spec hwf hi
  have hj1 : j < par1.length := by rw [hlen1]; exact hj
  obtain ⟨par2, hf2, hlen2, hwf2, hroots2⟩ := find_spec hwf1 hj1
  have hrj1 : rootD par1 j = rootD st.parent j := hroots1 j
  have hueq : UnionFind.union st i j =
      UnionFind.unionMerge st par2 (rootD st.parent i) (rootD st.parent j) := by
    rw [UnionFind.union, hf1]
    simp only [UnionFind.bindR_ok]
    rw [hf2]
    simp only [UnionFind.bindR_ok, hrj1]
  have hri_lt : rootD st.parent i < st.parent.length := rootD_lt hwf hi
  have hrj_lt : rootD st.parent j < st.parent.length := rootD_lt hwf hj
  have hroots21 : ∀ k, rootD par2 k = rootD st.parent k := by
    intro k
    rw [hroots2 k, hroots1 k]
  have hri_root : isRoot st.parent (rootD st.parent i) := rootD_isRoot hwf i
  have hrj_root : isRoot st.parent (rootD st.parent j) := rootD_isRoot hwf j
  have hri_root2 : isRoot par2 (rootD st.parent i) := by
    rw [isRoot_iff_rootD hwf2, hroots21, rootD_of_isRoot hri_root]
  have hrj_root2 : isRoot par2 (rootD st.parent j) := by
    rw [isRoot_iff_rootD hwf2, hroots21, rootD_of_isRoot hrj_root]
  have hlen21 : par2.length = st.parent.length := by rw [hlen2, hlen1]
  constructor
  · intro heq
    refine ⟨par2, ?_, hlen21, hwf2, hroots21⟩
    rw [hueq, UnionFind.unionMerge, if_neg (by simp [heq])]
  · intro hne
    have hg1 : BitPack.get st.parity (rootD st.parent i) =
        some (getBitD st.parity (rootD st.parent i)) :=
      BitPack.get_eq_getBitD (div64_lt hri_lt hpt)
    have hg2 : BitPack.get st.parity (rootD st.parent j) =
        some (getBitD st.parity (rootD st.parent j)) :=
      BitPack.get_eq_getBitD (div64_lt hrj_lt hpt)
    have hr1 : st.rank[rootD st.parent i]? =
        some (st.rank.getD (rootD st.parent i) 0) :=
      getElem?_eq_getD (lt_of_lt_of_le hri_lt hrk)
    have hr2 : st.rank[rootD st.parent j]? =
        some (st.rank.getD (rootD st.parent j) 0) :=
      getElem?_eq_getD (lt_of_lt_of_le hrj_lt hrk)
    rw [hueq, UnionFind.unionMerge, if_pos (by simpa using hne)]
    simp only [hg1, hg2, hr1, hr2, bindO_some]
    by_cases hrlt : st.rank.getD (rootD st.parent i) 0 <
        st.rank.getD (rootD st.parent j) 0
    · -- root_i is absorbed under root_j
      have hnr : unionNewRoot st i j = rootD st.parent j := by
        rw [unionNewRoot, if_pos hrlt]
      have hnk : unionNewRank st i j = st.rank := by
        rw [unionNewRank, if_neg (Nat.ne_of_lt hrlt)]
      have hsc : setChecked par2 (rootD st.parent i) (rootD st.parent j) =
          some (par2.set (rootD st.parent i) (rootD st.parent j)) := by
        rw [setChecked, if_pos (by rw [hlen21]; exact hri_lt)]
      obtain ⟨hwf3, hroots3⟩ := link hwf2 (by rw [hlen21]; exact hri_lt)
        (by rw [hlen21]; exact hrj_lt) hri_root2 hrj_root2 hne
      have hroots3f : ∀ k,
          rootD (par2.set (rootD st.parent i) (rootD st.parent j)) k =
          if rootD st.parent k = rootD st.parent i ∨
              rootD st.parent k = rootD st.parent j
          then unionNewRoot st i j
          else rootD st.parent k := by
        intro k
        rw [hroots3 k, hroots21 k, hnr]
        by_cases h1 : rootD st.parent k = rootD st.parent i
        · rw [if_pos h1, if_pos (Or.inl h1)]
        · rw [if_neg h1]
          by_cases h2 : rootD st.parent k = rootD st.parent j
          · rw [if_pos (Or.inr h2), h2]
          · rw [if_neg (by tauto)]
      have hlen3 : (par2.set (rootD st.parent i) (rootD st.parent j)).length =
          st.parent.length := by
        rw [List.length_set, hlen21]
      rw [if_pos hrlt]
      simp only [hsc, bindO_some]
      by_cases hpb : getBitD st.parity (rootD st.parent i) = true
      · obtain ⟨parity2, htog⟩ :
            ∃ t, BitPack.toggle st.parity (rootD st.parent j) = some t :=
          ⟨_, BitPack.toggle_eq (div64_lt hrj_lt hpt)⟩
        have hbits := getBitD_toggle (div64_lt hrj_lt hpt) htog
        rw [if_pos hpb]
        simp only [htog, bindO_some]
        refine ⟨_, parity2, ?_, hlen3, hwf3, hroots3f,
          toggle_length htog, ?_, ?_⟩
        · rw [hnk]
        · rw [hnr, hbits (rootD st.parent j), hpb]
          simp
        · intro x hx
          rw [hnr] at hx
          have hne2 : (rootD st.parent j == x) = false := by
            rw [beq_eq_decide]
            exact decide_eq_false (fun h => hx h.symm)
          rw [hbits x, hne2, Bool.xor_false]
      · have hpb2 : getBitD st.parity (rootD st.parent i) = false := by
          cases h : getBitD st.parity (rootD st.parent i)
          · rfl
          · exact absurd h hpb
        rw [if_neg hpb]
        refine ⟨_, st.parity, ?_, hlen3, hwf3, hroots3f, rfl, ?_,
          fun x _ => rfl⟩
        · rw [hnk]
        · rw [hnr, hpb2, Bool.false_xor]
    · -- root_j is absorbed under root_i
      have hnr : unionNewRoot st i j = rootD st.parent i := by
        rw [unionNewRoot, if_neg hrlt]
      have hsc : setChecked par2 (rootD st.parent j) (rootD st.parent i) =
          some (par2.set (rootD st.parent j) (rootD st.parent i)) := by
        rw [setChecked, if_pos (by rw [hlen21]; exact hrj_lt)]
      obtain ⟨hwf3, hroots3⟩ := link hwf2 (by rw [hlen21]; exact hrj_lt)
        (by rw [hlen21]; exact hri_lt) hrj_root2 hri_root2
        (fun h => hne h.symm)
      have hroots3f : ∀ k,
          rootD (par2.set (rootD st.parent j) (rootD st.parent i)) k =
          if rootD st.parent k = rootD st.parent i ∨
              rootD st.parent k = rootD st.parent j
          then unionNewRoot st i j
          else rootD st.parent k := by
        intro k
        rw [hroots3 k, hroots21 k, hnr]
        by_cases h2 : rootD st.parent k = rootD st.parent j
        · rw [if_pos h2, if_pos (Or.inr h2)]
        · rw [if_neg h2]
          by_cases h1 : rootD st.parent k = rootD st.parent i
          · rw [if_pos (Or.inl h1), h1]
          · rw [if_neg (by tauto)]
      have hlen3 : (par2.set (rootD st.parent j) (rootD st.parent i)).length =
          st.parent.length := by
        rw [List.length_set, hlen21]
      rw [if_neg hrlt]
      simp only [hsc, bindO_some]
      have hfinish : ∀ parity2,
          parity2.length = st.parity.length →
          getBitD parity2 (unionNewRoot st i j) =
            xor (getBitD st.parity (rootD st.parent i))
              (getBitD st.parity (rootD st.parent j)) →
          (∀ x, x ≠ unionNewRoot st i j →
            getBitD parity2 x = getBitD st.parity x) →
          ∃ par3 parity3,
            (if st.rank.getD (rootD st.parent i) 0 =
                st.rank.getD (rootD st.parent j) 0 then
              bindO (setChecked st.rank (rootD st.parent i)
                ((st.rank.getD (rootD st.parent i) 0 + 1) % 256)) fun rank1 =>
              DRes.ok (UnionFind.mk (par2.set (rootD st.parent j)
                (rootD st.parent i)) rank1 parity2, true)
            else
              DRes.ok (UnionFind.mk (par2.set (rootD st.parent j)
                (rootD st.parent i)) st.rank parity2, true)) =
              DRes.ok (UnionFind.mk par3 (unionNewRank st i j) parity3,
                true) ∧
            par3.length = st.parent.length ∧ WFU par3 ∧
            (∀ k, rootD par3 k =
              if rootD st.parent k = rootD st.parent i ∨
                  rootD st.parent k = rootD st.parent j
              then unionNewRoot st i j
              else rootD st.parent k) ∧
            parity3.length = st.parity.length ∧
            getBitD parity3 (unionNewRoot st i j) =
              xor (getBitD st.parity (rootD st.parent i))
                (getBitD st.parity (rootD st.parent j)) ∧
            (∀ x, x ≠ unionNewRoot st i j →
              getBitD parity3 x = getBitD st.parity x) := by
        intro parity2 hplen hpbit hpoth
        by_cases hreq : st.rank.getD (rootD st.parent i) 0 =
            st.rank.getD (rootD st.parent j) 0
        · have hscr : setChecked st.rank (rootD st.parent i)
              ((st.rank.getD (rootD st.parent i) 0 + 1) % 256) =
              some (st.rank.set (rootD st.parent i)
                ((st.rank.getD (rootD st.parent i) 0 + 1) % 256)) := by
            rw [setChecked, if_pos (lt_of_lt_of_le hri_lt hrk)]
          have hnk : unionNewRank st i j = st.rank.set (rootD st.parent i)
              ((st.rank.getD (rootD st.parent i) 0 + 1) % 256) := by
            rw [unionNewRank, if_pos hreq]
          rw [if_pos hreq]
          simp only [hscr, bindO_some]
          exact ⟨_, parity2, by rw [hnk], hlen3, hwf3, hroots3f, hplen,
            hpbit, hpoth⟩
        · have hnk : unionNewRank st i j = st.rank := by
            rw [unionNewRank, if_neg hreq]
          rw [if_neg hreq]
          exact ⟨_, parity2, by rw [hnk], hlen3, hwf3, hroots3f, hplen,
            hpbit, hpoth⟩
      by_cases hpj : getBitD st.parity (rootD st.parent j) = true
      · obtain ⟨parity2, htog⟩ :
            ∃ t, BitPack.toggle st.parity (rootD st.parent i) = some t :=
          ⟨_, BitPack.toggle_eq (div64_lt hri_lt hpt)⟩
        have hbits := getBitD_toggle (div64_lt hri_lt hpt) htog
        rw [if_pos hpj]
        simp only [htog, bindO_some]
        refine hfinish parity2 (toggle_length htog) ?_ ?_
        · rw [hnr, hbits (rootD st.parent i), hpj]
          simp
        · intro x hx
          rw [hnr] at hx
          have hne2 : (rootD st.parent i == x) = false := by
            rw [beq_eq_decide]
            exact decide_eq_false (fun h => hx h.symm)
          rw [hbits x, hne2, Bool.xor_false]
      · have hpj2 : getBitD st.parity (rootD st.parent j) = false := by
          cases h : getBitD st.parity (rootD st.parent j)
          · rfl
          · exact absurd h hpj
        rw [if_neg hpj]
        refine hfinish st.parity rfl ?_ (fun x _ => rfl)
        rw [hnr, hpj2, Bool.xor_false]

/-! ## Graph construction lemmas -/

theorem ensure_size_max (g : DecodingGraph) (n : Nat) :
    (g.ensure_size n).max_node_id = g.max_node_id := by
  rw [DecodingGraph.ensure_size]
  by_cases h : n > g.num_nodes_capacity
  · rw [if_pos h]
  · rw [if_neg h]

theorem ensure_size_fast (g : DecodingGraph) (n : Nat) :
    (g.ensure_size n).fast_edges = g.fast_edges := by
  rw [DecodingGraph.ensure_size]
  by_cases h : n > g.num_nodes_capacity
  · rw [if_pos h]
  · rw [if_neg h]

theorem add_edge_fast_edges (g : DecodingGraph) (u v : Nat) (w : Float) :
    (g.add_edge u v w).fast_edges = g.fast_edges ++ [(u % U32, v % U32)] := by
  rw [DecodingGraph.add_edge]
  by_cases h1 : (if u > v then u else v) ≥ (g.ensure_size
      ((if u > v then u else v) + 1)).max_node_id
  · rw [if_pos h1]
    simp [ensure_size_fast]
  · rw [if_neg h1]
    simp [ensure_size_fast]

theorem add_edge_max (g : DecodingGraph) (u v : Nat) (w : Float) :
    (g.add_edge u v w).max_node_id =
      if (if u > v then u else v) ≥ g.max_node_id
      then (if u > v then u else v) + 1
      else g.max_node_id := by
  rw [DecodingGraph.add_edge]
  by_cases h1 : (if u > v then u else v) ≥ (g.ensure_size
      ((if u > v then u else v) + 1)).max_node_id
  · rw [ensure_size_max] at h1
    rw [if_pos (by rw [ensure_size_max]; exact h1), if_pos h1]
  · rw [ensure_size_max] at h1
    rw [if_neg (by rw [ensure_size_max]; exact h1), if_neg h1]
    simp [ensure_size_max]

/-- Every edge stored by `add_edge` has both (narrowed) endpoints below the
updated `max_node_id`, and `max_node_id` never decreases. -/
theorem add_edge_bounds {g : DecodingGraph}
    (hg : ∀ e ∈ g.fast_edges, e.1 < g.max_node_id ∧ e.2 < g.max_node_id)
    (u v : Nat) (w : Float) :
    (∀ e ∈ (g.add_edge u v w).fast_edges,
      e.1 < (g.add_edge u v w).max_node_id ∧
      e.2 < (g.add_edge u v w).max_node_id) ∧
    g.max_node_id ≤ (g.add_edge u v w).max_node_id := by
  have hmax := add_edge_max g u v w
  have hmono : g.max_node_id ≤ (g.add_edge u v w).max_node_id := by
    rw [hmax]
    by_cases h : (if u > v then u else v) ≥ g.max_node_id
    · rw [if_pos h]
      omega
    · rw [if_neg h]
  have hnew : u % U32 < (g.add_edge u v w).max_node_id ∧
      v % U32 < (g.add_edge u v w).max_node_id := by
    have hu : u % U32 ≤ u := Nat.mod_le ..
    have hv : v % U32 ≤ v := Nat.mod_le ..
    rw [hmax]
    by_cases h : (if u > v then u else v) ≥ g.max_node_id
    · rw [if_pos h]
      constructor
      · by_cases huv : u > v
        · rw [if_pos huv] at h ⊢
          omega
        · rw [if_neg huv] at h ⊢
          omega
      · by_cases huv : u > v
        · rw [if_pos huv] at h ⊢
          omega
        · rw [if_neg huv] at h ⊢
          omega
    · rw [if_neg h]
      push_neg at h
      by_cases huv : u > v
      · rw [if_pos huv] at h
        omega
      · rw [if_neg huv] at h
        omega
  refine ⟨?_, hmono⟩
  intro e he
  rw [add_edge_fast_edges, List.mem_append] at he
  rcases he with he | he
  · obtain ⟨h1, h2⟩ := hg e he
    exact ⟨lt_of_lt_of_le h1 hmono, lt_of_lt_of_le h2 hmono⟩
  · rw [List.mem_singleton] at he
    subst he
    exact hnew

/-- All endpoints of an `addEdges`-built graph lie below `num_nodes`. -/
theorem addEdges_bounds (capacity : Nat) (es : List (Nat × Nat)) :
    ∀ e ∈ (addEdges capacity es).fast_edges,
      e.1 < (addEdges capacity es).num_nodes ∧
      e.2 < (addEdges capacity es).num_nodes := by
  rw [addEdges, DecodingGraph.num_nodes]
  suffices h : ∀ (g : DecodingGraph),
      (∀ e ∈ g.fast_edges, e.1 < g.max_node_id ∧ e.2 < g.max_node_id) →
      ∀ e ∈ (es.foldl (fun g e => g.add_edge e.1 e.2 1.0) g).fast_edges,
        e.1 < (es.foldl (fun g e => g.add_edge e.1 e.2 1.0) g).max_node_id ∧
        e.2 < (es.foldl (fun g e => g.add_edge e.1 e.2 1.0) g).max_node_id by
    apply h
    intro e he
    exact absurd he (List.not_mem_nil e)
  induction es with
  | nil => intro g hg; exact hg
  | cons e0 es ih =>
    intro g hg
    rw [List.foldl_cons]
    exact ih _ (add_edge_bounds hg e0.1 e0.2 1.0).1

theorem numRoots_congr {par par2 : List Nat} (hlen : par2.length = par.length)
    (hwf : WFU par) (hwf2 : WFU par2)
    (hroots : ∀ k, rootD par2 k = rootD par k) :
    numRoots par2 = numRoots par := by
  rw [numRoots, numRoots, hlen]
  congr 1
  apply Finset.filter_congr
  intro x _
  rw [isRoot_iff_rootD hwf, isRoot_iff_rootD hwf2, hroots x]

theorem numRoots_pos {par : List Nat} (hwf : WFU par) (h : 0 < par.length) :
    1 ≤ numRoots par := by
  rw [numRoots]
  exact Finset.card_pos.mpr ⟨rootD par 0, Finset.mem_filter.mpr
    ⟨Finset.mem_range.mpr (rootD_lt hwf h), by
      simpa using rootD_isRoot hwf 0⟩⟩

theorem numRoots_le {par : List Nat} : numRoots par ≤ par.length := by
  calc numRoots par ≤ (Finset.range par.length).card :=
    Finset.card_filter_le ..
  _ = par.length := Finset.card_range ..

/-- A merge that redirects exactly the clusters of two distinct roots `A`
(absorbed) and `B` (surviving) removes exactly one root. -/
theorem numRoots_merge {par par3 : List Nat} (hlen : par3.length = par.length)
    (hwf : WFU par) (hwf3 : WFU par3) {A B : Nat} (hA : isRoot par A)
    (hB : isRoot par B) (hAn : A < par.length) (hAB : A ≠ B)
    (hform : ∀ k, rootD par3 k =
      if rootD par k = A ∨ rootD par k = B then B else rootD par k) :
    numRoots par3 + 1 = numRoots par := by
  have hBA : B ≠ A := fun h => hAB h.symm
  have hroot3 : ∀ k, k < par.length →
      (isRoot par3 k ↔ (isRoot par k ∧ k ≠ A)) := by
    intro k _
    rw [isRoot_iff_rootD hwf3, hform k]
    constructor
    · intro h
      by_cases hc : rootD par k = A ∨ rootD par k = B
      · rw [if_pos hc] at h
        subst h
        refine ⟨hB, hBA⟩
      · rw [if_neg hc] at h
        exact ⟨(isRoot_iff_rootD hwf).mpr h, by
          intro hkA
          subst hkA
          exact hc (Or.inl h)⟩
    · rintro ⟨hk, hkA⟩
      have hrk : rootD par k = k := rootD_of_isRoot hk
      by_cases hc : rootD par k = A ∨ rootD par k = B
      · rw [if_pos hc]
        rcases hc with hc | hc
        · exact absurd (hrk ▸ hc) hkA
        · rw [hrk] at hc
          exact hc.symm
      · rw [if_neg hc]
        exact hrk
  have hfilter : (Finset.range par3.length).filter (fun r => isRoot par3 r) =
      ((Finset.range par.length).filter (fun r => isRoot par r)).erase A := by
    rw [hlen]
    ext x
    rw [Finset.mem_erase, Finset.mem_filter, Finset.mem_filter]
    constructor
    · rintro ⟨hx, hroot⟩
      have := (hroot3 x (Finset.mem_range.mp hx)).mp hroot
      exact ⟨this.2, hx, this.1⟩
    · rintro ⟨hxA, hx, hroot⟩
      exact ⟨hx, (hroot3 x (Finset.mem_range.mp hx)).mpr ⟨hroot, hxA⟩⟩
  rw [numRoots, numRoots, hfilter]
  have hAmem : A ∈ (Finset.range par.length).filter (fun r => isRoot par r) :=
    Finset.mem_filter.mpr ⟨Finset.mem_range.mpr hAn, by simpa using hA⟩
  rw [Finset.card_erase_of_mem hAmem]
  have : 1 ≤ ((Finset.range par.length).filter
      (fun r => isRoot par r)).card := Finset.card_pos.mpr ⟨A, hAmem⟩
  omega

/-! ## Decoder initialization lemmas -/

theorem set_range_self (n i : Nat) : (List.range n).set i i = List.range n := by
  by_cases h : i < n
  · apply List.ext_getElem?
    intro j
    by_cases hj : j = i
    · subst hj
      rw [List.getElem?_set_self (by simpa using h), List.getElem?_range h]
    · rw [List.getElem?_set_ne (fun hh => hj hh.symm)]
  · exact List.set_eq_of_length_le (by simpa using Nat.le_of_not_lt h)

theorem set_replicate_self {α : Type} (n i : Nat) (c : α) :
    (List.replicate n c).set i c = List.replicate n c := by
  by_cases h : i < n
  · apply List.ext_getElem?
    intro j
    by_cases hj : j = i
    · subst hj
      rw [List.getElem?_set_self (by simpa using h), List.getElem?_replicate,
        if_pos h]
    · rw [List.getElem?_set_ne (fun hh => hj hh.symm)]
  · exact List.set_eq_of_length_le (by simpa using Nat.le_of_not_lt h)

theorem initPR_eq : ∀ (l : List Nat) (parent rank : List Nat),
    (∀ i ∈ l, i < rank.length) →
    UnionFind.initPR l parent rank =
      some (l.foldl (fun p i => p.set i i) parent,
        l.foldl (fun r i => r.set i 0) rank) := by
  intro l
  induction l with
  | nil => intro parent rank _; rfl
  | cons i is ih =>
    intro parent rank hb
    rw [UnionFind.initPR, if_pos (hb i (List.mem_cons_self i is))]
    rw [ih (parent.set i i) (rank.set i 0)
      (fun x hx => by rw [List.length_set]; exact hb x (List.mem_cons_of_mem i hx))]
    rfl

theorem foldl_set_range (n : Nat) :
    ∀ (l : List Nat), l.foldl (fun p i => p.set i i) (List.range n) =
      List.range n := by
  intro l
  induction l with
  | nil => rfl
  | cons i is ih => rw [List.foldl_cons, set_range_self, ih]

theorem foldl_set_replicate (n : Nat) :
    ∀ (l : List Nat), l.foldl (fun r i => r.set i 0) (List.replicate n 0) =
      List.replicate n 0 := by
  intro l
  induction l with
  | nil => rfl
  | cons i is ih => rw [List.foldl_cons, set_replicate_self, ih]

/-- `UnionFind::new` run on the decoder's freshly pushed buffers is the
identity forest with zero ranks and zero parity words. -/
theorem unionFind_new_id (n m : Nat) :
    UnionFind.new (List.range n) (List.replicate n 0) (List.replicate m 0) =
      some ⟨List.range n, List.replicate n 0, List.replicate m 0⟩ := by
  rw [UnionFind.new, List.length_range]
  rw [initPR_eq (List.range n) (List.range n) (List.replicate n 0)
    (fun i hi => by
      rw [List.length_replicate]
      exact List.mem_range.mp hi)]
  rw [foldl_set_range, foldl_set_replicate, List.length_replicate]

theorem initLoop_go {N : Nat} : ∀ (l : List Nat) (a b c : StaticVec Nat N),
    l.foldl (fun s i => (s.1.pushD i, s.2.1.pushD 0, s.2.2.pushD 0))
      (a, b, c) =
      (l.foldl StaticVec.pushD a,
        l.foldl (fun w (_ : Nat) => StaticVec.pushD w 0) b,
        l.foldl (fun w (_ : Nat) => StaticVec.pushD w 0) c) := by
  intro l
  induction l with
  | nil => intro a b c; rfl
  | cons x xs ih =>
    intro a b c
    rw [List.foldl_cons, List.foldl_cons, List.foldl_cons, List.foldl_cons]
    exact ih ..

theorem foldl_pushD_zero {N : Nat} : ∀ (l : List Nat) (v : StaticVec Nat N),
    v.data.length + l.length ≤ N →
    l.foldl (fun w (_ : Nat) => StaticVec.pushD w 0) v =
      ⟨v.data ++ List.replicate l.length 0⟩ := by
  intro l
  induction l with
  | nil =>
    intro v _
    cases v
    simp
  | cons x xs ih =>
    intro v h
    simp only [List.length_cons] at h
    rw [List.foldl_cons]
    have hx : v.data.length < N := by omega
    have hpd : StaticVec.pushD v 0 = ⟨v.data ++ [0]⟩ := by
      rw [StaticVec.pushD, StaticVec.push_lt hx]
    rw [hpd, ih ⟨v.data ++ [0]⟩ (by
      rw [List.length_append]
      simp only [List.length_singleton]
      omega)]
    simp [List.replicate_succ]

/-- The decoder's buffer initialization produces the identity parent list,
zero ranks and zero touched flags. -/
theorem initLoop_eq {N n : Nat} (h : n ≤ N) :
    UnionFindDecoder.initLoop N n =
      (⟨List.range n⟩, ⟨List.replicate n 0⟩, ⟨List.replicate n 0⟩) := by
  rw [UnionFindDecoder.initLoop, initLoop_go]
  have h1 : (List.range n).foldl StaticVec.pushD (StaticVec.new Nat N) =
      (⟨List.range n⟩ : StaticVec Nat N) := by
    rw [StaticVec.foldl_pushD (List.range n) (StaticVec.new Nat N)
      (by simpa [StaticVec.new, List.length_range] using h)]
    rfl
  have h2 : (List.range n).foldl (fun w (_ : Nat) => StaticVec.pushD w 0)
      (StaticVec.new Nat N) = (⟨List.replicate n 0⟩ : StaticVec Nat N) := by
    rw [foldl_pushD_zero (List.range n) (StaticVec.new Nat N)
      (by simpa [StaticVec.new, List.length_range] using h)]
    simp [StaticVec.new, List.length_range]
  rw [h1, h2]

theorem parityInit_eq {N m : Nat} (h : m ≤ (N + 63) / 64) :
    UnionFindDecoder.parityInit N m =
      ⟨List.replicate m 0⟩ := by
  rw [UnionFindDecoder.parityInit]
  rw [foldl_pushD_zero (List.range m) (StaticVec.new Nat ((N + 63) / 64))
    (by simpa [StaticVec.new, List.length_range] using h)]
  simp [StaticVec.new, List.length_range]

theorem parentOf_range {n i : Nat} : parentOf (List.range n) i = i := by
  by_cases h : i < n
  · rw [parentOf, getD_eq_of_lt (by simpa using h)]
    exact List.getElem_range i _
  · exact parentOf_out (by simpa using Nat.le_of_not_lt h)

theorem wfu_range (n : Nat) : WFU (List.range n) := by
  intro i hi
  refine ⟨by rw [parentOf_range]; simpa using hi, 0, ?_⟩
  rw [iterP_zero, isRoot, parentOf_range]

theorem rootD_range (n i : Nat) : rootD (List.range n) i = i :=
  rootD_of_isRoot (by rw [isRoot, parentOf_range])

theorem numRoots_range (n : Nat) : numRoots (List.range n) = n := by
  rw [numRoots, List.length_range]
  rw [Finset.filter_true_of_mem (fun x _ => by rw [isRoot, parentOf_range])]
  exact Finset.card_range n

/-- A find on the identity forest returns its argument unchanged. -/
theorem find_range {n i : Nat} (hi : i < n) :
    UnionFind.find (List.range n) i = DRes.ok (List.range n, i) := by
  rw [UnionFind.find, List.length_range]
  rw [findAux_step (by simpa using hi)
    (by rw [parentOf_range]; simpa using hi)]
  rw [if_pos parentOf_range]

theorem toggle_parity_spec {st : UnionFind} {i : Nat} {par1 : List Nat}
    {root : Nat} (hf : UnionFind.find st.parent i = DRes.ok (par1, root))
    {parity1 : List Nat} (ht : BitPack.toggle st.parity root = some parity1) :
    UnionFind.toggle_parity st i = DRes.ok ⟨par1, st.rank, parity1⟩ := by
  rw [UnionFind.toggle_parity, hf]
  simp only [UnionFind.bindR_ok]
  rw [ht]
  simp only [bindO_some]

theorem bindDS_congr {α β : Type} (d : DRes α) {f g : α → SRes β}
    (h : ∀ a, f a = g a) : bindDS d f = bindDS d g := by
  cases d
  · exact h ..
  · rfl
  · rfl

theorem bindOS_congr {α β : Type} (o : Option α) {f g : α → SRes β}
    (h : ∀ a, f a = g a) : bindOS o f = bindOS o g := by
  cases o
  · rfl
  · exact h ..

/-- Syndrome injection on the identity forest: the parent list never moves,
rank is untouched, and the parity and touched buffers keep their lengths. -/
theorem injectGo_spec (n : Nat) : ∀ (syn : List Nat)
    (rank parity touched : List Nat), n ≤ 64 * parity.length →
    touched.length = n →
    ∃ parity2 touched2,
      UnionFindDecoder.injectGo n syn ⟨List.range n, rank, parity⟩ touched =
        SRes.ok (⟨List.range n, rank, parity2⟩, touched2) ∧
      parity2.length = parity.length ∧ touched2.length = n := by
  intro syn
  induction syn with
  | nil =>
    intro rank parity touched _ ht
    exact ⟨parity, touched, rfl, rfl, ht⟩
  | cons idx rest ih =>
    intro rank parity touched hp ht
    rw [UnionFindDecoder.injectGo]
    by_cases hidx : idx < n
    · rw [if_pos hidx]
      obtain ⟨parity1, htog⟩ :
          ∃ t, BitPack.toggle parity idx = some t :=
        ⟨_, BitPack.toggle_eq (div64_lt hidx hp)⟩
      rw [toggle_parity_spec (find_range hidx) htog]
      simp only [bindDS_ok]
      have hset : setChecked touched idx 1 = some (touched.set idx 1) := by
        rw [setChecked, if_pos (by rw [ht]; exact hidx)]
      rw [hset]
      simp only [bindOS_some]
      obtain ⟨parity2, touched2, hrun, hl1, hl2⟩ :=
        ih rank parity1 (touched.set idx 1)
          (by rw [toggle_length htog]; exact hp)
          (by rw [List.length_set]; exact ht)
      refine ⟨parity2, touched2, hrun, ?_, hl2⟩
      rw [hl1, toggle_length htog]
    · rw [if_neg hidx]
      exact ih rank parity touched hp ht

/-- Dropping the out-of-range indices from the syndrome list does not change
the injection loop at all. -/
theorem injectGo_filter (n : Nat) : ∀ (syn : List Nat) (st : UnionFind)
    (touched : List Nat),
    UnionFindDecoder.injectGo n syn st touched =
      UnionFindDecoder.injectGo n (syn.filter (fun idx => idx < n))
        st touched := by
  intro syn
  induction syn with
  | nil => intro st touched; rfl
  | cons idx rest ih =>
    intro st touched
    by_cases hidx : idx < n
    · rw [List.filter_cons_of_pos (by simpa using hidx)]
      rw [UnionFindDecoder.injectGo, if_pos hidx]
      rw [UnionFindDecoder.injectGo, if_pos hidx]
      apply bindDS_congr
      intro st1
      apply bindOS_congr
      intro touched1
      exact ih st1 touched1
    · rw [List.filter_cons_of_neg (by simpa using hidx)]
      rw [UnionFindDecoder.injectGo, if_neg hidx]
      exact ih st touched

theorem unionNewRank_length (st : UnionFind) (i j : Nat) :
    (unionNewRank st i j).length = st.rank.length := by
  rw [unionNewRank]
  by_cases h : st.rank.getD (rootD st.parent i) 0 =
      st.rank.getD (rootD st.parent j) 0
  · rw [if_pos h, List.length_set]
  · rw [if_neg h]

theorem numRoots_two {par : List Nat} {A B : Nat} (hA : isRoot par A)
    (hB : isRoot par B) (hAn : A < par.length) (hBn : B < par.length)
    (hAB : A ≠ B) : 2 ≤ numRoots par := by
  rw [numRoots]
  have h1 : 1 < ((Finset.range par.length).filter
      (fun r => isRoot par r)).card :=
    Finset.one_lt_card.mpr
      ⟨A, Finset.mem_filter.mpr ⟨Finset.mem_range.mpr hAn, by simpa using hA⟩,
        B, Finset.mem_filter.mpr ⟨Finset.mem_range.mpr hBn, by simpa using hB⟩,
        hAB⟩
  omega

/-- Full case analysis of one edge of the sweep: either the correction
buffer overflows (possible only when its capacity is at most n - 2), or the
step succeeds preserving the invariant, and either nothing changed or a
merge happened and the number of roots strictly dropped. -/
theorem edgeStep_spec {n cap : Nat} {s : SweepState} (hinv : SweepInv n s)
    {e : Nat × Nat} (hu : e.1 < n) (hv : e.2 < n) :
    (UnionFindDecoder.edgeStep cap s e = SRes.err QecError.BufferOverflow ∧
      cap + 2 ≤ n) ∨
    ∃ s1, UnionFindDecoder.edgeStep cap s e = SRes.ok s1 ∧ SweepInv n s1 ∧
      ((s1.changed = s.changed ∧
          numRoots s1.st.parent = numRoots s.st.parent) ∨
        (s1.changed = true ∧
          numRoots s1.st.parent < numRoots s.st.parent)) := by
  obtain ⟨hplen, hwf, hrlen, hpar, htlen, hsum⟩ := hinv
  have htu : e.1 < s.touched.length := by rw [htlen]; exact hu
  have htv : e.2 < s.touched.length := by rw [htlen]; exact hv
  rw [UnionFindDecoder.edgeStep]
  simp only [getElem?_eq_getD htu, getElem?_eq_getD htv, bindOS_some]
  by_cases hskip : s.touched.getD e.1 0 = 0 ∧ s.touched.getD e.2 0 = 0
  · rw [if_pos hskip]
    exact Or.inr ⟨s, rfl, ⟨hplen, hwf, hrlen, hpar, htlen, hsum⟩,
      Or.inl ⟨rfl, rfl⟩⟩
  · rw [if_neg hskip]
    have hu1 : e.1 < s.st.parent.length := by rw [hplen]; exact hu
    obtain ⟨par1, hf1, hlen1, hwf1, hroots1⟩ := find_spec hwf hu1
    have hv1 : e.2 < par1.length := by rw [hlen1, hplen]; exact hv
    obtain ⟨par2, hf2, hlen2, hwf2, hroots2⟩ := find_spec hwf1 hv1
    have hf2r : UnionFind.find par1 e.2 =
        DRes.ok (par2, rootD s.st.parent e.2) := by
      rw [hf2, hroots1 e.2]
    have hroots21 : ∀ k, rootD par2 k = rootD s.st.parent k := by
      intro k
      rw [hroots2 k, hroots1 k]
    have hlen21 : par2.length = n := by rw [hlen2, hlen1, hplen]
    have hR1lt : rootD s.st.parent e.1 < n := by
      rw [← hplen]
      exact rootD_lt hwf hu1
    have hR2lt : rootD s.st.parent e.2 < n := by
      rw [← hplen]
      exact rootD_lt hwf (by rw [hplen]; exact hv)
    have hR1root2 : isRoot par2 (rootD s.st.parent e.1) := by
      rw [isRoot_iff_rootD hwf2, hroots21, rootD_of_isRoot (rootD_isRoot hwf e.1)]
    have hR2root2 : isRoot par2 (rootD s.st.parent e.2) := by
      rw [isRoot_iff_rootD hwf2, hroots21, rootD_of_isRoot (rootD_isRoot hwf e.2)]
    have hnum2 : numRoots par2 = numRoots s.st.parent :=
      numRoots_congr (by rw [hlen21, hplen]) hwf hwf2 hroots21
    rw [hf1]
    simp only [bindDS_ok]
    rw [hf2r]
    simp only [bindDS_ok]
    by_cases hne : rootD s.st.parent e.1 ≠ rootD s.st.parent e.2
    · rw [if_pos hne]
      have hb1 : BitPack.get s.st.parity (rootD s.st.parent e.1) =
          some (getBitD s.st.parity (rootD s.st.parent e.1)) :=
        BitPack.get_eq_getBitD (div64_lt hR1lt hpar)
      have hb2 : BitPack.get s.st.parity (rootD s.st.parent e.2) =
          some (getBitD s.st.parity (rootD s.st.parent e.2)) :=
        BitPack.get_eq_getBitD (div64_lt hR2lt hpar)
      rw [hb1]
      simp only [bindOS_some]
      rw [hb2]
      simp only [bindOS_some]
      by_cases hact : (getBitD s.st.parity (rootD s.st.parent e.1) ||
          getBitD s.st.parity (rootD s.st.parent e.2)) = true
      · rw [if_pos hact]
        have hwfu2 : WFU (UnionFind.mk par2 s.st.rank s.st.parity).parent :=
          hwf2
        have hrk2 : (UnionFind.mk par2 s.st.rank s.st.parity).parent.length ≤
            (UnionFind.mk par2 s.st.rank s.st.parity).rank.length := by
          show par2.length ≤ s.st.rank.length
          rw [hlen21, hrlen]
        have hpt2 : (UnionFind.mk par2 s.st.rank s.st.parity).parent.length ≤
            64 * (UnionFind.mk par2 s.st.rank s.st.parity).parity.length := by
          show par2.length ≤ 64 * s.st.parity.length
          rw [hlen21]
          exact hpar
        have hu2 : e.1 < (UnionFind.mk par2 s.st.rank s.st.parity).parent.length := by
          show e.1 < par2.length
          rw [hlen21]
          exact hu
        have hv2 : e.2 < (UnionFind.mk par2 s.st.rank s.st.parity).parent.length := by
          show e.2 < par2.length
          rw [hlen21]
          exact hv
        have hne2 : rootD (UnionFind.mk par2 s.st.rank s.st.parity).parent e.1 ≠
            rootD (UnionFind.mk par2 s.st.rank s.st.parity).parent e.2 := by
          show rootD par2 e.1 ≠ rootD par2 e.2
          rw [hroots21, hroots21]
          exact hne
        obtain ⟨par3, parity2, hun, hlen3, hwf3, hform, hplen2, hbit, hoth⟩ :=
          (union_spec hwfu2 hrk2 hpt2 hu2 hv2).2 hne2
        rw [hun]
        simp only [bindDS_ok, eq_self_iff_true, if_true]
        have hcount : numRoots par3 + 1 = numRoots s.st.parent := by
          have hform2 : ∀ k, rootD par3 k =
              if rootD s.st.parent k = rootD s.st.parent e.1 ∨
                  rootD s.st.parent k = rootD s.st.parent e.2
              then (if s.st.rank.getD (rootD s.st.parent e.1) 0 <
                      s.st.rank.getD (rootD s.st.parent e.2) 0
                    then rootD s.st.parent e.2
                    else rootD s.st.parent e.1)
              else rootD s.st.parent k := by
            intro k
            have h := hform k
            rw [unionNewRoot] at h
            simp only [hroots21] at h
            exact h
          rw [← hnum2]
          by_cases hless : s.st.rank.getD (rootD s.st.parent e.1) 0 <
              s.st.rank.getD (rootD s.st.parent e.2) 0
          · apply numRoots_merge hlen3 hwf2 hwf3
              (A := rootD s.st.parent e.1) (B := rootD s.st.parent e.2)
              hR1root2 hR2root2 (by rw [hlen21]; exact hR1lt) hne
            intro k
            simp only [hroots21]
            rw [hform2 k, if_pos hless]
          · apply numRoots_merge hlen3 hwf2 hwf3
              (A := rootD s.st.parent e.2) (B := rootD s.st.parent e.1)
              hR2root2 hR1root2 (by rw [hlen21]; exact hR2lt)
              (fun h => hne h.symm)
            intro k
            simp only [hroots21]
            rw [hform2 k, if_neg hless]
            by_cases hc : rootD s.st.parent k = rootD s.st.parent e.1 ∨
                rootD s.st.parent k = rootD s.st.parent e.2
            · rw [if_pos hc, if_pos (Or.symm hc)]
            · rw [if_neg hc, if_neg (fun h => hc (Or.symm h))]
        by_cases hcap : s.out.length < cap
        · rw [if_pos hcap]
          have hsu : setChecked s.touched e.1 1 =
              some (s.touched.set e.1 1) := by
            rw [setChecked, if_pos htu]
          have hsv : setChecked (s.touched.set e.1 1) e.2 1 =
              some ((s.touched.set e.1 1).set e.2 1) := by
            rw [setChecked, if_pos (by rw [List.length_set]; exact htv)]
          rw [hsu]
          simp only [bindOS_some]
          rw [hsv]
          simp only [bindOS_some]
          refine Or.inr ⟨_, rfl, ?_, Or.inr ⟨rfl, ?_⟩⟩
          · refine ⟨by rw [hlen3]; exact hlen21, hwf3, ?_, ?_, ?_, ?_⟩
            · show (unionNewRank (UnionFind.mk par2 s.st.rank s.st.parity)
                e.1 e.2).length = n
              rw [unionNewRank_length]
              exact hrlen
            · show n ≤ 64 * parity2.length
              rw [hplen2]
              exact hpar
            · show ((s.touched.set e.1 1).set e.2 1).length = n
              rw [List.length_set, List.length_set]
              exact htlen
            · show (s.out ++ [(e.1, e.2)]).length + numRoots par3 = n
              rw [List.length_append, List.length_singleton]
              omega
          · show numRoots par3 < numRoots s.st.parent
            omega
        · rw [if_neg hcap]
          refine Or.inl ⟨rfl, ?_⟩
          have h2 : 2 ≤ numRoots s.st.parent := by
            rw [← hnum2]
            exact numRoots_two hR1root2 hR2root2 (by rw [hlen21]; exact hR1lt)
              (by rw [hlen21]; exact hR2lt) hne
          omega
      · rw [if_neg hact]
        refine Or.inr ⟨⟨⟨par2, s.st.rank, s.st.parity⟩, s.touched, s.out,
          s.changed⟩, rfl, ?_, Or.inl ⟨rfl, ?_⟩⟩
        · exact ⟨hlen21, hwf2, hrlen, hpar, htlen, by
            show s.out.length + numRoots par2 = n
            rw [hnum2]
            exact hsum⟩
        · exact hnum2
    · rw [if_neg hne]
      refine Or.inr ⟨⟨⟨par2, s.st.rank, s.st.parity⟩, s.touched, s.out,
        s.changed⟩, rfl, ?_, Or.inl ⟨rfl, ?_⟩⟩
      · exact ⟨hlen21, hwf2, hrlen, hpar, htlen, by
          show s.out.length + numRoots par2 = n
          rw [hnum2]
          exact hsum⟩
      · exact hnum2

/-- One pass over the edge list: either the buffer overflows (only possible
with capacity at most n - 2) or the invariant is preserved and the change
flag tracks whether the number of roots dropped. -/
theorem sweepGo_spec {n cap : Nat} : ∀ (edges : List (Nat × Nat))
    (s : SweepState), SweepInv n s →
    (∀ e ∈ edges, e.1 < n ∧ e.2 < n) →
    (UnionFindDecoder.sweepGo cap edges s = SRes.err QecError.BufferOverflow ∧
      cap + 2 ≤ n) ∨
    ∃ s1, UnionFindDecoder.sweepGo cap edges s = SRes.ok s1 ∧ SweepInv n s1 ∧
      ((s1.changed = s.changed ∧
          numRoots s1.st.parent = numRoots s.st.parent) ∨
        (s1.changed = true ∧
          numRoots s1.st.parent < numRoots s.st.parent)) := by
  intro edges
  induction edges with
  | nil =>
    intro s hinv _
    exact Or.inr ⟨s, rfl, hinv, Or.inl ⟨rfl, rfl⟩⟩
  | cons e es ih =>
    intro s hinv hb
    have hbe := hb e (List.mem_cons_self e es)
    have hbes : ∀ x ∈ es, x.1 < n ∧ x.2 < n :=
      fun x hx => hb x (List.mem_cons_of_mem e hx)
    rcases edgeStep_spec hinv hbe.1 hbe.2 with ⟨hstep, hclt⟩ |
      ⟨s1, hstep, hinv1, hd1⟩
    · left
      rw [UnionFindDecoder.sweepGo, hstep]
      exact ⟨rfl, hclt⟩
    · rw [UnionFindDecoder.sweepGo, hstep]
      rcases ih s1 hinv1 hbes with ⟨hrun, hclt⟩ | ⟨s2, hrun, hinv2, hd2⟩
      · exact Or.inl ⟨hrun, hclt⟩
      · refine Or.inr ⟨s2, hrun, hinv2, ?_⟩
        rcases hd1 with ⟨hc1, hn1⟩ | ⟨hc1, hn1⟩
        · rcases hd2 with ⟨hc2, hn2⟩ | ⟨hc2, hn2⟩
          · exact Or.inl ⟨by rw [hc2, hc1], by rw [hn2, hn1]⟩
          · exact Or.inr ⟨hc2, by rw [hn1] at hn2; exact hn2⟩
        · rcases hd2 with ⟨hc2, hn2⟩ | ⟨hc2, hn2⟩
          · exact Or.inr ⟨by rw [hc2, hc1], by rw [hn2]; exact hn1⟩
          · exact Or.inr ⟨hc2, lt_trans hn2 hn1⟩

theorem loopFuel_step_ok {cap : Nat} {edges : List (Nat × Nat)} {fuel : Nat}
    {s s1 : SweepState}
    (hrun : UnionFindDecoder.sweepGo cap edges { s with changed := false } =
      SRes.ok s1) :
    UnionFindDecoder.loopFuel cap edges (fuel + 1) s =
      (if s1.changed = true then
        match UnionFindDecoder.loopFuel cap edges fuel s1 with
        | SRes.ok (s2, p) => SRes.ok (s2, p + 1)
        | SRes.err q => SRes.err q
        | SRes.oob => SRes.oob
        | SRes.fuelOut => SRes.fuelOut
      else SRes.ok (s1, 1)) := by
  rw [UnionFindDecoder.loopFuel, hrun]

theorem loopFuel_step_err {cap : Nat} {edges : List (Nat × Nat)} {fuel : Nat}
    {s : SweepState} {q : QecError}
    (hrun : UnionFindDecoder.sweepGo cap edges { s with changed := false } =
      SRes.err q) :
    UnionFindDecoder.loopFuel cap edges (fuel + 1) s = SRes.err q := by
  rw [UnionFindDecoder.loopFuel, hrun]

/-- The fixpoint loop: with fuel exceeding the current number of roots it
either reports buffer overflow (capacity at most n - 2) or terminates
successfully, performing at most max(roots, 1) passes. -/
theorem loopFuel_spec {n cap : Nat} {edges : List (Nat × Nat)}
    (hb : ∀ e ∈ edges, e.1 < n ∧ e.2 < n) :
    ∀ (fuel : Nat) (s : SweepState), SweepInv n s →
    numRoots s.st.parent < fuel →
    (UnionFindDecoder.loopFuel cap edges fuel s =
        SRes.err QecError.BufferOverflow ∧ cap + 2 ≤ n) ∨
    ∃ s2 p, UnionFindDecoder.loopFuel cap edges fuel s = SRes.ok (s2, p) ∧
      SweepInv n s2 ∧ p ≤ max (numRoots s.st.parent) 1 := by
  intro fuel
  induction fuel with
  | zero =>
    intro s _ hfuel
    exact absurd hfuel (Nat.not_lt_zero _)
  | succ fuel ih =>
    intro s hinv hfuel
    have hinvf : SweepInv n { s with changed := false } := hinv
    rcases sweepGo_spec edges { s with changed := false } hinvf hb with
      ⟨hrun, hclt⟩ | ⟨s1, hrun, hinv1, hd1⟩
    · left
      rw [loopFuel_step_err hrun]
      exact ⟨rfl, hclt⟩
    · rw [loopFuel_step_ok hrun]
      rcases hd1 with ⟨hc1, hn1⟩ | ⟨hc1, hn1⟩
      · have hc1f : s1.changed = false := hc1
        rw [hc1f]
        simp only [Bool.false_eq_true, if_false]
        exact Or.inr ⟨s1, 1, rfl, hinv1, le_max_right ..⟩
      · rw [hc1]
        simp only [eq_self_iff_true, if_true]
        have hnum1 : numRoots s1.st.parent < numRoots s.st.parent := hn1
        have hfuel1 : numRoots s1.st.parent < fuel := by omega
        rcases ih s1 hinv1 hfuel1 with ⟨hrun2, hclt⟩ |
          ⟨s2, p, hrun2, hinv2, hp⟩
        · left
          rw [hrun2]
          exact ⟨rfl, hclt⟩
        · right
          refine ⟨s2, p + 1, by rw [hrun2], hinv2, ?_⟩
          have hn_ge : 1 ≤ numRoots s.st.parent := by omega
          have hn1_ge : 1 ≤ numRoots s1.st.parent := by
            obtain ⟨hplen1, hwf1, -, -, -, -⟩ := hinv1
            apply numRoots_pos hwf1
            rw [hplen1]
            obtain ⟨hplen0, -, -, -, -, -⟩ := hinv
            have : numRoots s.st.parent ≤ n := by
              rw [← hplen0]
              exact numRoots_le
            omega
          rw [max_eq_left hn1_ge] at hp
          rw [max_eq_left hn_ge]
          omega

/-- End-to-end behaviour of `solve_into` on a graph built through
`add_edge` whose node count fits the decoder capacity: the call either
succeeds with at most n - 1 corrections within max(n, 1) passes, or reports
buffer overflow, which forces the output capacity to be at most n - 2. -/
theorem solveIntoAux_spec {N cap c : Nat} {es : List (Nat × Nat)}
    (syn : List Nat) (hN : (addEdges c es).num_nodes ≤ N) :
    (∃ cs passes,
      UnionFindDecoder.solveIntoAux N (addEdges c es) syn cap =
        (SRes.ok cs, passes) ∧
      cs.length ≤ (addEdges c es).num_nodes - 1 ∧
      passes ≤ max (addEdges c es).num_nodes 1) ∨
    (UnionFindDecoder.solveIntoAux N (addEdges c es) syn cap =
        (SRes.err QecError.BufferOverflow, 0) ∧
      cap + 2 ≤ (addEdges c es).num_nodes) := by
  set g := addEdges c es with hg
  set n := g.num_nodes with hn
  have hmin : min g.num_nodes N = n := Nat.min_eq_left hN
  have hm : (n + 63) / 64 ≤ (N + 63) / 64 := Nat.div_le_div_right (by omega)
  have hn64 : n ≤ 64 * ((n + 63) / 64) := by omega
  obtain ⟨parity2, touched2, hinj, hplen, htlen⟩ :=
    injectGo_spec n syn (List.replicate n 0)
      (List.replicate ((n + 63) / 64) 0) (List.replicate n 0)
      (by rw [List.length_replicate]; exact hn64)
      (List.length_replicate ..)
  have hrun : UnionFindDecoder.solveIntoAux N g syn cap =
      (match UnionFindDecoder.loopFuel cap g.fast_edges (n + 1)
          ⟨⟨List.range n, List.replicate n 0, parity2⟩, touched2, [], false⟩
        with
        | SRes.ok (s, passes) => (SRes.ok s.out, passes)
        | SRes.err q => (SRes.err q, 0)
        | SRes.oob => (SRes.oob, 0)
        | SRes.fuelOut => (SRes.fuelOut, 0)) := by
    rw [UnionFindDecoder.solveIntoAux]
    simp only [hmin, initLoop_eq hN, parityInit_eq hm, unionFind_new_id, hinj]
  have hinv0 : SweepInv n
      ⟨⟨List.range n, List.replicate n 0, parity2⟩, touched2, [], false⟩ := by
    refine ⟨List.length_range n, wfu_range n, List.length_replicate .., ?_,
      htlen, ?_⟩
    · show n ≤ 64 * parity2.length
      rw [hplen, List.length_replicate]
      exact hn64
    · show List.length [] + numRoots (List.range n) = n
      rw [numRoots_range]
      simp
  have hb : ∀ e ∈ g.fast_edges, e.1 < n ∧ e.2 < n := addEdges_bounds c es
  have hfuel : numRoots (List.range n) < n + 1 := by
    rw [numRoots_range]
    omega
  rcases loopFuel_spec hb (n + 1)
      ⟨⟨List.range n, List.replicate n 0, parity2⟩, touched2, [], false⟩
      hinv0 hfuel with ⟨hrun2, hclt⟩ | ⟨s2, p, hrun2, hinv2, hp⟩
  · right
    rw [hrun, hrun2]
    exact ⟨rfl, hclt⟩
  · left
    refine ⟨s2.out, p, by rw [hrun, hrun2], ?_, ?_⟩
    · obtain ⟨hpl2, hwf2, -, -, -, hsum2⟩ := hinv2
      by_cases h0 : 0 < n
      · have := numRoots_pos hwf2 (by rw [hpl2]; exact h0)
        omega
      · omega
    · have hnum0 : numRoots (List.range n) = n := numRoots_range n
      rw [hnum0] at hp
      exact hp

/-! ## Capacity monotonicity and capacity irrelevance of the decoder -/

theorem edgeStep_mono {cap cap2 : Nat} (hcc : cap ≤ cap2) {s : SweepState}
    {e : Nat × Nat} {s1 : SweepState}
    (h : UnionFindDecoder.edgeStep cap s e = SRes.ok s1) :
    UnionFindDecoder.edgeStep cap2 s e = SRes.ok s1 := by
  rw [UnionFindDecoder.edgeStep] at h ⊢
  cases h1 : s.touched[e.1]? with
  | none => rw [h1] at h; exact absurd h (by simp [bindOS])
  | some tu =>
  rw [h1] at h
  simp only [bindOS_some] at h ⊢
  cases h2 : s.touched[e.2]? with
  | none => rw [h2] at h; exact absurd h (by simp [bindOS])
  | some tv =>
  rw [h2] at h
  simp only [bindOS_some] at h ⊢
  by_cases hskip : tu = 0 ∧ tv = 0
  · rw [if_pos hskip] at h ⊢
    exact h
  · rw [if_neg hskip] at h ⊢
    cases h3 : UnionFind.find s.st.parent e.1 with
    | oob => rw [h3] at h; exact absurd h (by simp [bindDS])
    | fuelOut => rw [h3] at h; exact absurd h (by simp [bindDS])
    | ok pr1 =>
    rw [h3] at h
    simp only [bindDS_ok] at h ⊢
    cases h4 : UnionFind.find pr1.1 e.2 with
    | oob => rw [h4] at h; exact absurd h (by simp [bindDS])
    | fuelOut => rw [h4] at h; exact absurd h (by simp [bindDS])
    | ok pr2 =>
    rw [h4] at h
    simp only [bindDS_ok] at h ⊢
    by_cases hne : pr1.2 ≠ pr2.2
    · rw [if_pos hne] at h ⊢
      cases h5 : BitPack.get s.st.parity pr1.2 with
      | none => rw [h5] at h; exact absurd h (by simp [bindOS])
      | some ua =>
      rw [h5] at h
      simp only [bindOS_some] at h ⊢
      cases h6 : BitPack.get s.st.parity pr2.2 with
      | none => rw [h6] at h; exact absurd h (by simp [bindOS])
      | some va =>
      rw [h6] at h
      simp only [bindOS_some] at h ⊢
      by_cases hact : (ua || va) = true
      · rw [if_pos hact] at h ⊢
        cases h7 : UnionFind.union ⟨pr2.1, s.st.rank, s.st.parity⟩ e.1 e.2 with
        | oob => rw [h7] at h; exact absurd h (by simp [bindDS])
        | fuelOut => rw [h7] at h; exact absurd h (by simp [bindDS])
        | ok ub =>
        rw [h7] at h
        simp only [bindDS_ok] at h ⊢
        by_cases hb2 : ub.2 = true
        · rw [if_pos hb2] at h ⊢
          by_cases hcap : s.out.length < cap
          · rw [if_pos hcap] at h
            rw [if_pos (by omega)]
            exact h
          · rw [if_neg hcap] at h
            exact absurd h (by simp)
        · rw [if_neg hb2] at h ⊢
          exact h
      · rw [if_neg hact] at h ⊢
        exact h
    · rw [if_neg hne] at h ⊢
      exact h

theorem sweepGo_mono {cap cap2 : Nat} (hcc : cap ≤ cap2) :
    ∀ (edges : List (Nat × Nat)) (s s1 : SweepState),
    UnionFindDecoder.sweepGo cap edges s = SRes.ok s1 →
    UnionFindDecoder.sweepGo cap2 edges s = SRes.ok s1 := by
  intro edges
  induction edges with
  | nil => intro s s1 h; exact h
  | cons e es ih =>
    intro s s1 h
    rw [UnionFindDecoder.sweepGo] at h ⊢
    cases hstep : UnionFindDecoder.edgeStep cap s e with
    | ok s0 =>
      rw [hstep] at h
      rw [edgeStep_mono hcc hstep]
      exact ih s0 s1 h
    | err q => rw [hstep] at h; exact absurd h (by simp)
    | oob => rw [hstep] at h; exact absurd h (by simp)
    | fuelOut => rw [hstep] at h; exact absurd h (by simp)

theorem loopFuel_mono {cap cap2 : Nat} (hcc : cap ≤ cap2)
    {edges : List (Nat × Nat)} :
    ∀ (fuel : Nat) (s : SweepState) (s2 : SweepState) (p : Nat),
    UnionFindDecoder.loopFuel cap edges fuel s = SRes.ok (s2, p) →
    UnionFindDecoder.loopFuel cap2 edges fuel s = SRes.ok (s2, p) := by
  intro fuel
  induction fuel with
  | zero =>
    intro s s2 p h
    exact absurd h (by rw [UnionFindDecoder.loopFuel]; simp)
  | succ fuel ih =>
    intro s s2 p h
    cases hsw : UnionFindDecoder.sweepGo cap edges { s with changed := false }
      with
    | ok s1 =>
      rw [loopFuel_step_ok hsw] at h
      rw [loopFuel_step_ok (sweepGo_mono hcc _ _ _ hsw)]
      by_cases hch : s1.changed = true
      · rw [if_pos hch] at h ⊢
        cases hlp : UnionFindDecoder.loopFuel cap edges fuel s1 with
        | ok sp =>
          rw [hlp] at h
          rw [ih s1 sp.1 sp.2 (by rw [hlp])]
          exact h
        | err q => rw [hlp] at h; exact absurd h (by simp)
        | oob => rw [hlp] at h; exact absurd h (by simp)
        | fuelOut => rw [hlp] at h; exact absurd h (by simp)
      · rw [if_neg hch] at h ⊢
        exact h
    | err q =>
      rw [loopFuel_step_err hsw] at h
      exact absurd h (by simp)
    | oob =>
      exact absurd h (by rw [UnionFindDecoder.loopFuel, hsw]; simp)
    | fuelOut =>
      exact absurd h (by rw [UnionFindDecoder.loopFuel, hsw]; simp)

/-- Success of `solve_into` is stable under enlarging the correction buffer:
a run that fits in the smaller buffer is unchanged by extra capacity. -/
theorem solveIntoAux_mono {N cap cap2 : Nat} (hcc : cap ≤ cap2)
    {g : DecodingGraph} {syn : List Nat} {cs : List (Nat × Nat)} {p : Nat}
    (h : UnionFindDecoder.solveIntoAux N g syn cap = (SRes.ok cs, p)) :
    UnionFindDecoder.solveIntoAux N g syn cap2 = (SRes.ok cs, p) := by
  rw [UnionFindDecoder.solveIntoAux] at h
  cases hnew : UnionFind.new (UnionFindDecoder.initLoop N
      (min g.num_nodes N)).1.data (UnionFindDecoder.initLoop N
      (min g.num_nodes N)).2.1.data (UnionFindDecoder.parityInit N
      ((min g.num_nodes N + 63) / 64)).data with
  | none =>
    simp only [hnew] at h
    exact absurd h (by simp)
  | some dsu =>
  simp only [hnew] at h
  cases hinj : UnionFindDecoder.injectGo (min g.num_nodes N) syn dsu
      (UnionFindDecoder.initLoop N (min g.num_nodes N)).2.2.data with
  | ok pr =>
    obtain ⟨dsu1, touched1⟩ := pr
    simp only [hinj] at h
    cases hlp : UnionFindDecoder.loopFuel cap g.fast_edges
        (min g.num_nodes N + 1) ⟨dsu1, touched1, [], false⟩ with
    | ok sp =>
      obtain ⟨s2, p2⟩ := sp
      simp only [hlp] at h
      have hlp2 := loopFuel_mono hcc _ _ s2 p2 hlp
      rw [UnionFindDecoder.solveIntoAux]
      simp only [hnew, hinj, hlp2]
      exact h
    | err q => simp only [hlp] at h; exact absurd h (by simp)
    | oob => simp only [hlp] at h; exact absurd h (by simp)
    | fuelOut => simp only [hlp] at h; exact absurd h (by simp)
  | err q => simp only [hinj] at h; exact absurd h (by simp)
  | oob => simp only [hinj] at h; exact absurd h (by simp)
  | fuelOut => simp only [hinj] at h; exact absurd h (by simp)

/-- The decoder's compile-time capacity is irrelevant once it accommodates
the graph: two sufficient capacities give identical runs. -/
theorem solveIntoAux_capN {N M cap : Nat} {g : DecodingGraph} {syn : List Nat}
    (hN : g.num_nodes ≤ N) (hM : g.num_nodes ≤ M) :
    UnionFindDecoder.solveIntoAux N g syn cap =
      UnionFindDecoder.solveIntoAux M g syn cap := by
  rw [UnionFindDecoder.solveIntoAux, UnionFindDecoder.solveIntoAux]
  simp only [Nat.min_eq_left hN, Nat.min_eq_left hM, initLoop_eq hN,
    initLoop_eq hM,
    parityInit_eq (Nat.div_le_div_right (by omega : g.num_nodes + 63 ≤ N + 63)),
    parityInit_eq (Nat.div_le_div_right (by omega : g.num_nodes + 63 ≤ M + 63))]

/-! ## CSR adjacency construction (`build_adjacency`) -/

open StaticQueue in
/-- C7: starting from a newly constructed queue and under every
single-threaded sequence of push and pop calls, the wrapping difference
head - tail stays in [0, N]; push(item) returns Err(item) and leaves head,
tail, and every slot unchanged exactly when head - tail = N, and otherwise
writes item into slot head mod N and increments head by one (wrapping at
2 ^ 64); pop returns None exactly when tail = head. -/
theorem claim_C7 {α : Type} {N : Nat} (hpow : ∃ k, N = 2 ^ k)
    (q : StaticQueue α N) (hq : Reachable q) (x : α) :
    wdiff q ≤ N ∧
    ((q.push x).2 = Except.error x ↔ wdiff q = N) ∧
    (wdiff q = N → (q.push x).1 = q) ∧
    (wdiff q < N →
      (q.push x).1 =
        ⟨q.buffer.set (q.head % N) (some x), (q.head + 1) % U64, q.tail⟩ ∧
      (q.push x).2 = Except.ok ()) ∧
    ((q.pop).2 = none ↔ q.tail = q.head) := by
  obtain ⟨_h1, _h2, h3⟩ := reachable_bounds q hq
  have hmask : q.head &&& (N - 1) = q.head % N := by
    obtain ⟨k, rfl⟩ := hpow
    exact Nat.and_pow_two_sub_one_eq_mod q.head k
  have hwd : (q.head + U64 - q.tail) % U64 = wdiff q := rfl
  refine ⟨h3, ?_, ?_, ?_, ?_⟩
  · by_cases hfull : (q.head + U64 - q.tail) % U64 ≥ N
    · rw [push, if_pos hfull]
      rw [hwd] at hfull
      exact ⟨fun _ => le_antisymm h3 hfull, fun _ => rfl⟩
    · rw [push, if_neg hfull]
      rw [hwd] at hfull
      constructor
      · intro h
        cases h
      · intro h
        exact absurd (le_of_eq h.symm) hfull
  · intro hN
    have hfull : (q.head + U64 - q.tail) % U64 ≥ N := by
      rw [hwd, hN]
    rw [push, if_pos hfull]
  · intro hlt
    have hfull : ¬(q.head + U64 - q.tail) % U64 ≥ N := by
      rw [hwd]
      omega
    rw [push, if_neg hfull, hmask]
    exact ⟨rfl, rfl⟩
  · by_cases hempty : q.tail = q.head
    · simp [pop, hempty]
    · simp [pop, hempty]

open StaticQueue in
/-- Witness for C7 at a concrete reachable queue (the freshly constructed
queue of capacity 4). -/
theorem claim_C7_witness :
    wdiff (StaticQueue.new Nat 4) ≤ 4 ∧
    (((StaticQueue.new Nat 4).push 9).2 = Except.error 9 ↔
      wdiff (StaticQueue.new Nat 4) = 4) ∧
    (wdiff (StaticQueue.new Nat 4) = 4 →
      ((StaticQueue.new Nat 4).push 9).1 = StaticQueue.new Nat 4) ∧
    (wdiff (StaticQueue.new Nat 4) < 4 →
      ((StaticQueue.new Nat 4).push 9).1 =
        ⟨(StaticQueue.new Nat 4).buffer.set ((StaticQueue.new Nat 4).head % 4)
          (some 9), ((StaticQueue.new Nat 4).head + 1) % U64,
          (StaticQueue.new Nat 4).tail⟩ ∧
      ((StaticQueue.new Nat 4).push 9).2 = Except.ok ()) ∧
    (((StaticQueue.new Nat 4).pop).2 = none ↔
      (StaticQueue.new Nat 4).tail = (StaticQueue.new Nat 4).head) :=
  claim_C7 ⟨2, rfl⟩ (StaticQueue.new Nat 4) StaticQueue.Reachable.init 9

/-- C8: for every StaticVec with len < N, push(x) returns Ok(()), increases
len by exactly one, and makes the stored sequence the old contents followed
by x; for every StaticVec with len = N, push(x) returns Err(x) carrying back
the rejected item and leaves len and all stored elements unchanged. -/
theorem claim_C8 {α : Type} {N : Nat} (v : StaticVec α N) (x : α) :
    (v.len < N →
      (v.push x).2 = Except.ok () ∧
      (v.push x).1.len = v.len + 1 ∧
      (v.push x).1.data = v.data ++ [x]) ∧
    (v.len = N →
      (v.push x).2 = Except.error x ∧ (v.push x).1 = v) := by
  constructor
  · intro hlt
    rw [StaticVec.len] at hlt
    rw [StaticVec.push, if_pos hlt]
    refine ⟨rfl, ?_, rfl⟩
    simp [StaticVec.len]
  · intro heq
    rw [StaticVec.len] at heq
    rw [StaticVec.push, if_neg (by omega)]
    exact ⟨rfl, rfl⟩

/-- C5 (amended): for every DSU state satisfying the parent-forest invariant
and every node i < n, after one call to find(i) an immediately subsequent
find(i) returns the same root value as the first call and leaves the root of
every node unchanged.  (The original claim that the second call touches no
parent pointers is false: path halving compresses only partially, so a
second find can still rewrite parent entries — see the counterexample.) -/
theorem claim_C5 {par : List Nat} (hwf : WF par) {i : Nat}
    (hi : i < par.length) :
    ∃ par2 r, UnionFind.find par i = DRes.ok (par2, r) ∧
      ∃ par3, UnionFind.find par2 i = DRes.ok (par3, r) ∧
        ∀ j, rootD par3 j = rootD par j := by
  obtain ⟨par2, hf1, hlen1, hwf1, hroots1⟩ := find_spec (wfu_of_wf hwf) hi
  obtain ⟨par3, hf2, hlen2, hwf2, hroots2⟩ :=
    find_spec hwf1 (show i < par2.length by rw [hlen1]; exact hi)
  refine ⟨par2, rootD par i, hf1, par3, ?_, ?_⟩
  · rw [hf2, hroots1 i]
  · intro j
    rw [hroots2 j, hroots1 j]

/-- Witness for C5 at the concrete chain forest 3 → 2 → 1 → 0. -/
theorem claim_C5_witness :
    ∃ par2 r, UnionFind.find [0, 0, 1, 2] 3 = DRes.ok (par2, r) ∧
      ∃ par3, UnionFind.find par2 3 = DRes.ok (par3, r) ∧
        ∀ j, rootD par3 j = rootD [0, 0, 1, 2] j :=
  claim_C5 (by decide) (by decide)

/-- Counterexample for C5 as frozen: on the parent forest 3 → 2 → 1 → 0 the
first find(3) halves the path to [0, 0, 0, 1]; the immediately subsequent
find(3) returns the same root 0 but rewrites parent entry 3 from 1 to 0, so
it does not leave the parent array untouched. -/
theorem claim_C5_counterexample :
    WF [0, 0, 1, 2] ∧
    UnionFind.find [0, 0, 1, 2] 3 = DRes.ok ([0, 0, 0, 1], 0) ∧
    UnionFind.find [0, 0, 0, 1] 3 = DRes.ok ([0, 0, 0, 0], 0) ∧
    ¬([0, 0, 0, 1] : List Nat) = [0, 0, 0, 0] := by decide

/-- C3 (amended): for every DSU state satisfying the parent-forest invariant
and every pair of nodes i, j < n: union(i, j) returns false, leaves rank and
parity unchanged and preserves every cluster's root exactly when i and j
already have the same root (parent pointers may still be rewritten by the
path compression inside the two finds); otherwise it returns true, merges
exactly those two clusters (attaching the lower-rank root under the
higher-rank root; on equal ranks the root of j is attached under the root of
i and the rank of i's root is incremented by one modulo 256, the wrapping u8
increment), and the surviving root's parity bit afterwards equals the XOR of
the two clusters' parity bits before the call, all other parity bits
unchanged. -/
theorem claim_C3 {st : UnionFind} (hwf : WF st.parent)
    (hrk : st.parent.length ≤ st.rank.length)
    (hpt : st.parent.length ≤ 64 * st.parity.length)
    {i j : Nat} (hi : i < st.parent.length) (hj : j < st.parent.length) :
    (rootD st.parent i = rootD st.parent j →
      ∃ par2, UnionFind.union st i j =
          DRes.ok (⟨par2, st.rank, st.parity⟩, false) ∧
        par2.length = st.parent.length ∧ WFU par2 ∧
        ∀ k, rootD par2 k = rootD st.parent k) ∧
    (rootD st.parent i ≠ rootD st.parent j →
      ∃ par3 parity2, UnionFind.union st i j =
          DRes.ok (⟨par3, unionNewRank st i j, parity2⟩, true) ∧
        par3.length = st.parent.length ∧ WFU par3 ∧
        (∀ k, rootD par3 k =
          if rootD st.parent k = rootD st.parent i ∨
              rootD st.parent k = rootD st.parent j
          then unionNewRoot st i j
          else rootD st.parent k) ∧
        parity2.length = st.parity.length ∧
        getBitD parity2 (unionNewRoot st i j) =
          xor (getBitD st.parity (rootD st.parent i))
            (getBitD st.parity (rootD st.parent j)) ∧
        (∀ x, x ≠ unionNewRoot st i j →
          getBitD parity2 x = getBitD st.parity x)) :=
  union_spec (wfu_of_wf hwf) hrk hpt hi hj

/-- Witness for C3 at the two-node forest with distinct singleton clusters:
union(0, 1) succeeds and merges them. -/
theorem claim_C3_witness :
    (rootD [0, 1] 0 ≠ rootD [0, 1] 1) ∧
    ∃ par3 parity2,
      UnionFind.union ⟨[0, 1], [0, 0], [0]⟩ 0 1 =
        DRes.ok
          (⟨par3, unionNewRank ⟨[0, 1], [0, 0], [0]⟩ 0 1, parity2⟩, true) ∧
      par3.length = ([0, 1] : List Nat).length ∧ WFU par3 ∧
      (∀ k, rootD par3 k =
        if rootD [0, 1] k = rootD [0, 1] 0 ∨ rootD [0, 1] k = rootD [0, 1] 1
        then unionNewRoot ⟨[0, 1], [0, 0], [0]⟩ 0 1
        else rootD [0, 1] k) ∧
      parity2.length = ([0] : List Nat).length ∧
      getBitD parity2 (unionNewRoot ⟨[0, 1], [0, 0], [0]⟩ 0 1) =
        xor (getBitD [0] (rootD [0, 1] 0)) (getBitD [0] (rootD [0, 1] 1)) ∧
      (∀ x, x ≠ unionNewRoot ⟨[0, 1], [0, 0], [0]⟩ 0 1 →
        getBitD parity2 x = getBitD [0] x) :=
  ⟨by decide,
    (@claim_C3 ⟨[0, 1], [0, 0], [0]⟩ (by decide) (by decide) (by decide)
      0 1 (by decide) (by decide)).2 (by decide)⟩

/-- Counterexample for C3 as frozen: on the chain forest 2 → 1 → 0 with node
2 and node 0 in the same cluster, union(2, 0) returns false but does not
leave the parent array unchanged — the find inside union rewrites it from
[0, 0, 1] to [0, 0, 0] by path compression. -/
theorem claim_C3_counterexample :
    WF [0, 0, 1] ∧
    UnionFind.union ⟨[0, 0, 1], [0, 0, 0], [0]⟩ 2 0 =
      DRes.ok (⟨[0, 0, 0], [0, 0, 0], [0]⟩, false) ∧
    ¬([0, 0, 1] : List Nat) = [0, 0, 0] := by decide

/-- Witness for C8 at concrete vectors of capacity 2: a non-full push
succeeds and appends, a full push hands the item back. -/
theorem claim_C8_witness :
    ((⟨[5]⟩ : StaticVec Nat 2).push 7).2 = Except.ok () ∧
    ((⟨[5]⟩ : StaticVec Nat 2).push 7).1.data = [5, 7] ∧
    ((⟨[5, 6]⟩ : StaticVec Nat 2).push 7).2 = Except.error 7 ∧
    ((⟨[5, 6]⟩ : StaticVec Nat 2).push 7).1 = ⟨[5, 6]⟩ := by
  have h1 := (claim_C8 (⟨[5]⟩ : StaticVec Nat 2) 7).1 (by decide)
  have h2 := (claim_C8 (⟨[5, 6]⟩ : StaticVec Nat 2) 7).2 (by decide)
  exact ⟨h1.1, h1.2.2, h2.1, h2.2⟩

/-- C1 (corrected): on the chain graph with nodes {0, 1, 2, 3} and edges
[(0, 1), (1, 2), (2, 3)], syndromes [0, 2, 3], any decoder capacity N ≥ 4 and
any output buffer capacity ≥ 4, `solve_into` returns Ok — but the correction
sequence is [(0, 1), (1, 2), (2, 3)], not the [(0, 1), (1, 2)] the spec
expects: the sweep merges along an edge when EITHER endpoint cluster has odd
parity, so edge (2, 3) between the odd cluster {3} and the even cluster
{0, 1, 2} is also emitted. -/
theorem claim_C1 (N cap : Nat) (hN : 4 ≤ N) (hcap : 4 ≤ cap) :
    UnionFindDecoder.solveInto N (addEdges 4 [(0, 1), (1, 2), (2, 3)])
      [0, 2, 3] cap = SRes.ok [(0, 1), (1, 2), (2, 3)] := by
  have hnum : (addEdges 4 [(0, 1), (1, 2), (2, 3)]).num_nodes = 4 := by decide
  have hbase : UnionFindDecoder.solveIntoAux 4
      (addEdges 4 [(0, 1), (1, 2), (2, 3)]) [0, 2, 3] 4 =
      (SRes.ok [(0, 1), (1, 2), (2, 3)], 2) := by decide
  have hmono := solveIntoAux_mono hcap hbase
  have hcapN := @solveIntoAux_capN N 4 cap (addEdges 4 [(0, 1), (1, 2), (2, 3)])
      [0, 2, 3] (by rw [hnum]; exact hN) (by rw [hnum])
  rw [UnionFindDecoder.solveInto, hcapN, hmono]

/-- Witness for C1 at the smallest admissible capacities N = 4, cap = 4. -/
theorem claim_C1_witness :
    4 ≤ 4 ∧
    UnionFindDecoder.solveInto 4 (addEdges 4 [(0, 1), (1, 2), (2, 3)])
      [0, 2, 3] 4 = SRes.ok [(0, 1), (1, 2), (2, 3)] :=
  ⟨by decide, claim_C1 4 4 (by decide) (by decide)⟩

/-- Counterexample for C1 as frozen: the run the spec describes returns
[(0, 1), (1, 2), (2, 3)], which differs from the predicted [(0, 1), (1, 2)]. -/
theorem claim_C1_counterexample :
    UnionFindDecoder.solveInto 4 (addEdges 4 [(0, 1), (1, 2), (2, 3)])
        [0, 2, 3] 4 = SRes.ok [(0, 1), (1, 2), (2, 3)] ∧
    SRes.ok [(0, 1), (1, 2), (2, 3)] ≠
      (SRes.ok [(0, 1), (1, 2)] : SRes (List (Nat × Nat))) := by decide

/-- C2 (corrected): on the two-component graph with edges [(0, 1), (2, 3)]
and syndromes [0, 2], any decoder capacity N ≥ 4 and any output buffer
capacity ≥ 2, `solve_into` returns Ok — but with corrections
[(0, 1), (2, 3)], not the empty list the spec expects: the sweep merges along
any edge with an odd endpoint cluster, so each odd syndrome absorbs its even
neighbour. -/
theorem claim_C2 (N cap : Nat) (hN : 4 ≤ N) (hcap : 2 ≤ cap) :
    UnionFindDecoder.solveInto N (addEdges 4 [(0, 1), (2, 3)])
      [0, 2] cap = SRes.ok [(0, 1), (2, 3)] := by
  have hnum : (addEdges 4 [(0, 1), (2, 3)]).num_nodes = 4 := by decide
  have hbase : UnionFindDecoder.solveIntoAux 4
      (addEdges 4 [(0, 1), (2, 3)]) [0, 2] 2 =
      (SRes.ok [(0, 1), (2, 3)], 2) := by decide
  have hmono := solveIntoAux_mono hcap hbase
  have hcapN := @solveIntoAux_capN N 4 cap (addEdges 4 [(0, 1), (2, 3)])
      [0, 2] (by rw [hnum]; exact hN) (by rw [hnum])
  rw [UnionFindDecoder.solveInto, hcapN, hmono]

/-- Witness for C2 at N = 4, cap = 2. -/
theorem claim_C2_witness :
    4 ≤ 4 ∧
    UnionFindDecoder.solveInto 4 (addEdges 4 [(0, 1), (2, 3)])
      [0, 2] 2 = SRes.ok [(0, 1), (2, 3)] :=
  ⟨by decide, claim_C2 4 2 (by decide) (by decide)⟩

/-- Counterexample for C2 as frozen: the run the spec describes returns
[(0, 1), (2, 3)], not the predicted empty correction list. -/
theorem claim_C2_counterexample :
    UnionFindDecoder.solveInto 4 (addEdges 4 [(0, 1), (2, 3)])
        [0, 2] 4 = SRes.ok [(0, 1), (2, 3)] ∧
    SRes.ok [(0, 1), (2, 3)] ≠ (SRes.ok [] : SRes (List (Nat × Nat))) := by
  decide

/-- C4 (corrected): for every graph built via `add_edge` with
n = num_nodes() ≤ the decoder capacity N and every syndrome list, `solve_into`
terminates and returns Ok whenever the output buffer capacity is at least n,
emitting at most n − 1 correction edges; the fixpoint loop performs at most
max(n, 1) passes over the edge list — not the claimed n, which fails for the
empty graph, where the loop still runs one pass. -/
theorem claim_C4 {N cap c : Nat} {es : List (Nat × Nat)} (syn : List Nat)
    (hN : (addEdges c es).num_nodes ≤ N)
    (hcap : (addEdges c es).num_nodes ≤ cap) :
    ∃ cs passes,
      UnionFindDecoder.solveIntoAux N (addEdges c es) syn cap =
        (SRes.ok cs, passes) ∧
      cs.length ≤ (addEdges c es).num_nodes - 1 ∧
      passes ≤ max (addEdges c es).num_nodes 1 := by
  rcases solveIntoAux_spec syn hN with ⟨cs, p, h1, h2, h3⟩ | ⟨-, h2⟩
  · exact ⟨cs, p, h1, h2, h3⟩
  · omega

/-- Witness for C4 on the chain scenario at N = 4, cap = 4. -/
theorem claim_C4_witness :
    (addEdges 4 [(0, 1), (1, 2), (2, 3)]).num_nodes ≤ 4 ∧
    (∃ cs passes,
      UnionFindDecoder.solveIntoAux 4 (addEdges 4 [(0, 1), (1, 2), (2, 3)])
          [0, 2, 3] 4 = (SRes.ok cs, passes) ∧
      cs.length ≤ (addEdges 4 [(0, 1), (1, 2), (2, 3)]).num_nodes - 1 ∧
      passes ≤ max (addEdges 4 [(0, 1), (1, 2), (2, 3)]).num_nodes 1) :=
  ⟨by decide, claim_C4 [0, 2, 3] (by decide) (by decide)⟩

/-- Counterexample for C4 as frozen: on the empty graph (n = 0) the fixpoint
loop still performs one pass over the (empty) edge list, exceeding the
claimed bound of n = 0 passes. -/
theorem claim_C4_counterexample :
    UnionFindDecoder.solveIntoAux 4 (addEdges 0 []) [] 4 =
      (SRes.ok [], 1) ∧
    (addEdges 0 []).num_nodes = 0 := by decide

/-- C6 (confirmed): syndrome indices ≥ min(num_nodes(), N) are silently
dropped — the whole run of `solve_into` (result, corrections, and pass count)
equals that of the same call with all such indices removed from the syndrome
list. -/
theorem claim_C6 (N cap : Nat) (g : DecodingGraph) (syn : List Nat) :
    UnionFindDecoder.solveIntoAux N g syn cap =
      UnionFindDecoder.solveIntoAux N g
        (syn.filter (fun d => d < min g.num_nodes N)) cap := by
  cases hnew : UnionFind.new (UnionFindDecoder.initLoop N
      (min g.num_nodes N)).1.data (UnionFindDecoder.initLoop N
      (min g.num_nodes N)).2.1.data (UnionFindDecoder.parityInit N
      ((min g.num_nodes N + 63) / 64)).data with
  | none =>
    rw [UnionFindDecoder.solveIntoAux, UnionFindDecoder.solveIntoAux]
    simp only [hnew]
  | some dsu =>
    rw [UnionFindDecoder.solveIntoAux, UnionFindDecoder.solveIntoAux]
    simp only [hnew, injectGo_filter (min g.num_nodes N) syn dsu]

/-- C10 (confirmed): for every graph built via `add_edge` whose num_nodes()
is at most the decoder capacity N, no buffer access of `solve_into` is out of
bounds (the embedding's oob outcome, which covers every checked and unchecked
index into parent, rank, parity, and touched, is unreachable); conversely,
with num_nodes() = 3 > N = 2 the raw edge endpoint 2 indexes the touched
buffer of length 2 out of bounds. -/
theorem claim_C10 :
    (∀ (N cap c : Nat) (es : List (Nat × Nat)) (syn : List Nat),
      (addEdges c es).num_nodes ≤ N →
      UnionFindDecoder.solveInto N (addEdges c es) syn cap ≠ SRes.oob) ∧
    UnionFindDecoder.solveInto 2 (addEdges 0 [(0, 2)]) [] 4 = SRes.oob := by
  constructor
  · intro N cap c es syn hN
    rcases solveIntoAux_spec syn hN with ⟨cs, p, h1, -, -⟩ | ⟨h1, -⟩
    · rw [UnionFindDecoder.solveInto, h1]
      simp
    · rw [UnionFindDecoder.solveInto, h1]
      simp
  · decide

/-- Witness for C10's universal part on the chain scenario. -/
theorem claim_C10_witness :
    (addEdges 4 [(0, 1), (1, 2)]).num_nodes ≤ 4 ∧
    UnionFindDecoder.solveInto 4 (addEdges 4 [(0, 1), (1, 2)]) [0] 4 ≠
      SRes.oob :=
  ⟨by decide, claim_C10.1 4 4 4 [(0, 1), (1, 2)] [0] (by decide)⟩

end QCU

